import Mathlib

/-!
Shallow embedding of the TestManager Sublime Text plugin (src/texpl) in Lean 4,
used to settle the frozen claims C1..C10 about the test-data model, the output
decoders and the worker-queue engine.

Conventions of the embedding:
* Python dictionaries become association lists `List (String × α)` preserving
  insertion order (lookup finds the first match, replacement is in place).
* `datetime` values become opaque `Nat` timestamps.
* Raising an exception is modelled by returning `none` / `Except.error`.
* Stateful methods become pure state-passing functions.
-/

namespace TexplData

/-- `TestStatus` from src/texpl/test_data.py (string-valued enum). -/
inductive TestStatus where
  | PASSED
  | FAILED
  | CRASHED
  | STOPPED
  | SKIPPED
  | NOT_RUN
deriving DecidableEq, Repr

/-- The Python enum member's `.value` string (test_data.py lines 20-26). -/
def TestStatus.value : TestStatus → String
  | .PASSED => "passed"
  | .FAILED => "failed"
  | .CRASHED => "crashed"
  | .STOPPED => "stopped"
  | .SKIPPED => "skipped"
  | .NOT_RUN => "not_run"

/-- `TestStatus(v)` constructs the member with value `v` (enum value lookup);
`none` models the `ValueError` for an unknown value. -/
def testStatusOfValue (v : String) : Option TestStatus :=
  if v = "passed" then some .PASSED
  else if v = "failed" then some .FAILED
  else if v = "crashed" then some .CRASHED
  else if v = "stopped" then some .STOPPED
  else if v = "skipped" then some .SKIPPED
  else if v = "not_run" then some .NOT_RUN
  else none

/-- `RunStatus` from src/texpl/test_data.py. -/
inductive RunStatus where
  | NOT_RUNNING
  | RUNNING
  | QUEUED
deriving DecidableEq, Repr

/-- `STATUS_PRIORITY` (test_data.py lines 35-43); `none` is the Python `None` key. -/
def STATUS_PRIORITY : Option TestStatus → Int
  | none => -1
  | some .NOT_RUN => 0
  | some .STOPPED => 1
  | some .SKIPPED => 2
  | some .PASSED => 3
  | some .FAILED => 4
  | some .CRASHED => 5

/-- `RUN_STATUS_PRIORITY` (test_data.py lines 45-50). -/
def RUN_STATUS_PRIORITY : Option RunStatus → Int
  | none => -1
  | some .NOT_RUNNING => 0
  | some .QUEUED => 1
  | some .RUNNING => 2

/-- `status_merge` (test_data.py line 57), restricted to non-`None` statuses as
used by `recompute_status`. -/
def status_merge (s1 s2 : TestStatus) : TestStatus :=
  if STATUS_PRIORITY (some s1) > STATUS_PRIORITY (some s2) then s1 else s2

/-- `run_status_merge` (test_data.py line 60). -/
def run_status_merge (s1 s2 : RunStatus) : RunStatus :=
  if RUN_STATUS_PRIORITY (some s1) > RUN_STATUS_PRIORITY (some s2) then s1 else s2

/-- `TestLocation` (test_data.py lines 82-86). -/
structure TestLocation where
  executable : String := ""
  file : String := ""
  line : Nat := 0
deriving DecidableEq, Repr

/-- The non-recursive fields of `TestItem` (test_data.py lines 141-154), with the
constructor's default values. `last_run` is an opaque timestamp. -/
structure ItemData where
  name : String := ""
  full_name : String := ""
  discovery_id : Nat := 0
  framework_id : String := ""
  run_id : String := ""
  location : Option TestLocation := none
  last_status : TestStatus := TestStatus.NOT_RUN
  run_status : RunStatus := RunStatus.NOT_RUNNING
  last_run : Option Nat := none
deriving DecidableEq, Repr

/-- `TestItem`: item data plus the optional children dictionary
(`None` for a leaf, a dict for an internal node). -/
inductive TestItem where
  | mk (data : ItemData) (children : Option (List (String × TestItem)))

def TestItem.data : TestItem → ItemData
  | .mk d _ => d

def TestItem.children : TestItem → Option (List (String × TestItem))
  | .mk _ c => c

@[simp] theorem TestItem.data_mk (d : ItemData) (c : Option (List (String × TestItem))) :
    (TestItem.mk d c).data = d := rfl

@[simp] theorem TestItem.children_mk (d : ItemData) (c : Option (List (String × TestItem))) :
    (TestItem.mk d c).children = c := rfl

/-- Replace the item data, keeping children. -/
def TestItem.withData (i : TestItem) (d : ItemData) : TestItem :=
  .mk d i.children

/-- Association-list lookup: Python `d[k]` / `k in d` on a dict. -/
def lookupA (cs : List (String × TestItem)) (k : String) : Option TestItem :=
  match cs with
  | [] => none
  | (k', v) :: rest => if k' = k then some v else lookupA rest k

/-- Drop every entry with key `k`; helper keeping association lists free of
duplicate keys (a Python dict can never hold two entries for one key). -/
def removeA (cs : List (String × TestItem)) (k : String) : List (String × TestItem) :=
  match cs with
  | [] => []
  | (k', v') :: rest => if k' = k then removeA rest k else (k', v') :: removeA rest k

/-- Association-list insert-or-replace: Python `d[k] = v` (replacement keeps
the original position, as dicts do; any duplicate entries for the key, which
cannot occur in a dict, are dropped). -/
def insertA (cs : List (String × TestItem)) (k : String) (v : TestItem) :
    List (String × TestItem) :=
  match cs with
  | [] => [(k, v)]
  | (k', v') :: rest =>
    if k' = k then (k, v) :: removeA rest k else (k', v') :: insertA rest k v

/-- `TEST_SEPARATOR`-joined name, `test_path_to_name` (test_data.py line 75). -/
def test_path_to_name (path : List String) : String :=
  String.intercalate "/" path

/-- The fold the `new_status` loop of `recompute_status` computes: the merge
(maximum under `STATUS_PRIORITY`) of the children's `last_status`, starting
from `NOT_RUN`. -/
def childStatusFold (cs : List (String × TestItem)) : TestStatus :=
  cs.foldl (fun acc c => status_merge acc c.2.data.last_status) TestStatus.NOT_RUN

/-- The fold the `new_run_status` loop of `recompute_status` computes. -/
def childRunFold (cs : List (String × TestItem)) : RunStatus :=
  cs.foldl (fun acc c => run_status_merge acc c.2.data.run_status) RunStatus.NOT_RUNNING

/-- `TestItem.recompute_status` (test_data.py lines 227-240): on an internal
node, fold the children's statuses with the merge functions starting from
`NOT_RUN` / `NOT_RUNNING`; a leaf is returned unchanged. -/
def recompute_status (i : TestItem) : TestItem :=
  match i.children with
  | none => i
  | some cs =>
    .mk { i.data with last_status := childStatusFold cs, run_status := childRunFold cs }
      (some cs)

/-- `TestList.find_test` (test_data.py lines 342-353): walk the path from the
given node; `none` when a step has no children or lacks the key. -/
def find_test (node : TestItem) : List String → Option TestItem
  | [] => some node
  | p :: rest =>
    match node.children with
    | none => none
    | some cs =>
      match lookupA cs p with
      | none => none
      | some c => find_test c rest

/-- The fresh internal node `update_test` creates for a missing intermediate
path component (test_data.py lines 387-391). -/
def mkAutoInternal (name full : String) (item : ItemData) : TestItem :=
  .mk { name := name, full_name := full,
        discovery_id := item.discovery_id, framework_id := item.framework_id }
    (some [])

/-- Recursive core of `TestList.update_test` (test_data.py lines 376-395).
`pref` is the list of components already consumed (for building the
`full_name` of auto-created internal nodes). `none` models the
`assert parent.children is not None` failure (walking into a leaf). When the
final key already exists, the existing node is kept and `item` is discarded,
exactly as in the source. -/
def updateGo (node : TestItem) (pref : List String) (path : List String)
    (item : TestItem) : Option TestItem :=
  match path with
  | [] => some node
  | p :: rest =>
    match node.children with
    | none => none
    | some cs =>
      let child :=
        match lookupA cs p with
        | some c => c
        | none =>
          if rest = [] then item
          else mkAutoInternal p (test_path_to_name (pref ++ [p])) item.data
      match updateGo child (pref ++ [p]) rest item with
      | none => none
      | some child' => some (.mk node.data (some (insertA cs p child')))

/-- `TestList.update_test` acting on the root node. -/
def update_test (root : TestItem) (path : List String) (item : TestItem) :
    Option TestItem :=
  updateGo root [] path item

/-- Recursive core of `TestList.update_parent_status` (test_data.py lines
397-413): if the whole walk succeeds, every strict ancestor of the path is
recomputed, deepest first; if the walk fails nothing at all is recomputed
(the early `return`), which the `none` propagation models. -/
def upsGo (node : TestItem) : List String → Option TestItem
  | [] => some node
  | p :: rest =>
    match node.children with
    | none => none
    | some cs =>
      match lookupA cs p with
      | none => none
      | some c =>
        match upsGo c rest with
        | none => none
        | some c' => some (recompute_status (.mk node.data (some (insertA cs p c'))))

/-- `TestList.update_parent_status`: the tree is left unchanged when the walk
fails (the Python early `return` leaves the list untouched). -/
def update_parent_status (root : TestItem) (path : List String) : TestItem :=
  (upsGo root path).getD root

mutual
/-- `TestList.update_parent_statuses` (test_data.py lines 415-425): recompute
every internal node bottom-up. -/
def update_parent_statuses : TestItem → TestItem
  | .mk d none => .mk d none
  | .mk d (some cs) => recompute_status (.mk d (some (upsAll cs)))

/-- Children walker of `update_parent_statuses`. -/
def upsAll : List (String × TestItem) → List (String × TestItem)
  | [] => []
  | (k, c) :: rest => (k, update_parent_statuses c) :: upsAll rest
end

mutual
/-- Apply `f` to every leaf (`children is None`) of the tree; this models the
`for item in self.tests.tests(): ...` loops, since `TestList.tests` yields
exactly the leaves (test_data.py lines 427-435). -/
def mapLeaves (f : ItemData → ItemData) : TestItem → TestItem
  | .mk d none => .mk (f d) none
  | .mk d (some cs) => .mk d (some (mapLeavesAll f cs))

/-- Children walker of `mapLeaves`. -/
def mapLeavesAll (f : ItemData → ItemData) :
    List (String × TestItem) → List (String × TestItem)
  | [] => []
  | (k, c) :: rest => (k, mapLeaves f c) :: mapLeavesAll f rest
end

/-- One node satisfies the aggregation invariant: an internal node carries
exactly the merge (maximum under the priority order) of its children's
statuses; leaves are unconstrained. -/
def consistentAtB (i : TestItem) : Bool :=
  match i.children with
  | none => true
  | some cs =>
    i.data.last_status = childStatusFold cs ∧ i.data.run_status = childRunFold cs

mutual
/-- The aggregation invariant holds at every node of the tree. -/
def consistentB : TestItem → Bool
  | .mk d none => consistentAtB (.mk d none)
  | .mk d (some cs) => consistentAtB (.mk d (some cs)) && consistentAllB cs

/-- The aggregation invariant holds inside every child subtree. -/
def consistentAllB : List (String × TestItem) → Bool
  | [] => true
  | (_, c) :: rest => consistentB c && consistentAllB rest
end

/-- `DiscoveredTest` (test_data.py lines 103-109). -/
structure DiscoveredTest where
  full_name : List String := []
  discovery_id : Nat := 0
  framework_id : String := ""
  run_id : String := ""
  location : TestLocation := {}
deriving DecidableEq, Repr

/-- `TestItem.from_discovered` (test_data.py lines 195-201). Note the source
does not copy `discovery_id` (it stays at the constructor default `0`) and
leaves `last_status`/`run_status`/`last_run` at their defaults. `full_name[-1]`
is modelled with `getLastD` (the source raises on an empty path; all theorems
use non-empty paths). -/
def from_discovered (t : DiscoveredTest) : TestItem :=
  .mk { name := t.full_name.getLastD "",
        full_name := test_path_to_name t.full_name,
        framework_id := t.framework_id,
        run_id := t.run_id,
        location := some t.location } none

/-- `TestItem.update_from_discovered` (test_data.py lines 203-207): refresh
exactly `discovery_id`, `framework_id`, `run_id` and `location`; everything
else, including the children, is untouched. -/
def update_from_discovered (i : TestItem) (t : DiscoveredTest) : TestItem :=
  .mk { i.data with discovery_id := t.discovery_id,
                    framework_id := t.framework_id,
                    run_id := t.run_id,
                    location := some t.location } i.children

/-- `TestItem.notify_run_queued` (test_data.py lines 209-210). -/
def notify_run_queued (d : ItemData) : ItemData :=
  { d with run_status := RunStatus.QUEUED }

/-- `TestItem.notify_run_stopped` (test_data.py lines 212-217). -/
def notify_run_stopped (d : ItemData) : ItemData :=
  if d.run_status = RunStatus.RUNNING then
    { d with last_status := TestStatus.CRASHED, run_status := RunStatus.NOT_RUNNING }
  else if d.run_status = RunStatus.QUEUED then
    { d with last_status := TestStatus.STOPPED, run_status := RunStatus.NOT_RUNNING }
  else
    { d with run_status := RunStatus.NOT_RUNNING }

/-- `TestItem.update_from_started` (test_data.py lines 219-221); the start
time is an opaque timestamp. -/
def update_from_started (startTime : Nat) (d : ItemData) : ItemData :=
  { d with last_run := some startTime, run_status := RunStatus.RUNNING }

/-- `TestItem.update_from_finished` (test_data.py lines 223-225). -/
def update_from_finished (status : TestStatus) (d : ItemData) : ItemData :=
  { d with last_status := status, run_status := RunStatus.NOT_RUNNING }

/-- Walk to the node at `path` and replace it by `f` of it; models the
`item = self.tests.find_test(path); item.mutate()` in-place mutation pattern
of the coordinator. Fails (`none`) exactly when `find_test` fails, which in
the source raises `Exception('Unknown test ...')`. -/
def modifyGo (node : TestItem) (path : List String) (f : TestItem → TestItem) :
    Option TestItem :=
  match path with
  | [] => some (f node)
  | p :: rest =>
    match node.children with
    | none => none
    | some cs =>
      match lookupA cs p with
      | none => none
      | some c =>
        match modifyGo c rest f with
        | none => none
        | some c' => some (.mk node.data (some (insertA cs p c')))

/-- The mutable coordinator state that the claims are about: the test tree
(`TestList.root`), the `meta.running` flag, the `meta.last_discovery` stamp
and the deferred-parent-update marker `last_test_finished`
(test_data.py lines 531-559). Persistence, views and threads are omitted. -/
structure DataState where
  root : TestItem
  running : Bool := false
  last_discovery : Option Nat := none
  last_test_finished : Option (List String) := none

/-- `TestList.__init__` root node (test_data.py line 276): empty internal node. -/
def emptyRoot : TestItem := .mk { name := "", full_name := "" } (some [])

/-- The item the `notify_discovered_tests` loop builds for one discovered
test (test_data.py lines 670-674): refresh the existing item with the same
full path, or create a fresh one. -/
def discItem (old : TestItem) (t : DiscoveredTest) : TestItem :=
  match find_test old t.full_name with
  | none => from_discovered t
  | some i => update_from_discovered i t

/-- One iteration of the `notify_discovered_tests` loop (test_data.py lines
669-677): look the discovered test up in the old tree, refresh or create the
item, insert it in the new tree and recompute its parents. -/
def discoverStep (old : TestItem) (acc : TestItem) (t : DiscoveredTest) :
    Option TestItem :=
  (update_test acc t.full_name (discItem old t)).map
    (fun acc' => update_parent_status acc' t.full_name)

/-- The whole `notify_discovered_tests` loop. -/
def discoverAll (old : TestItem) (acc : TestItem) : List DiscoveredTest → Option TestItem
  | [] => some acc
  | t :: rest =>
    match discoverStep old acc t with
    | none => none
    | some acc' => discoverAll old acc' rest

/-- `TestData.notify_discovered_tests` (test_data.py lines 661-679): a fresh
tree is built and replaces the old one; `last_discovery` is stamped. -/
def notify_discovered_tests (st : DataState) (tests : List DiscoveredTest)
    (time : Nat) : Option DataState :=
  (discoverAll st.root emptyRoot tests).map
    (fun r => { st with root := r, last_discovery := some time })

/-- One iteration of the `notify_run_started` loop (test_data.py lines
688-694): queue the item at `path` and recompute its parents. -/
def queueStep (root : TestItem) (p : List String) : Option TestItem :=
  (modifyGo root p (fun i => i.withData (notify_run_queued i.data))).map
    (fun r => update_parent_status r p)

def queueAll (root : TestItem) : List (List String) → Option TestItem
  | [] => some root
  | p :: rest =>
    match queueStep root p with
    | none => none
    | some r => queueAll r rest

/-- `TestData.notify_run_started` (test_data.py lines 681-701), without the
refresh-thread plumbing. -/
def notify_run_started (st : DataState) (paths : List (List String)) :
    Option DataState :=
  (queueAll st.root paths).map (fun r => { st with root := r, running := true })

/-- One iteration of the `notify_run_finished` loop (test_data.py lines
709-715). -/
def stopStep (root : TestItem) (p : List String) : Option TestItem :=
  (modifyGo root p (fun i => i.withData (notify_run_stopped i.data))).map
    (fun r => update_parent_status r p)

def stopAll (root : TestItem) : List (List String) → Option TestItem
  | [] => some root
  | p :: rest =>
    match stopStep root p with
    | none => none
    | some r => stopAll r rest

/-- `TestData.notify_run_finished` (test_data.py lines 703-721). -/
def notify_run_finished (st : DataState) (paths : List (List String)) :
    Option DataState :=
  (stopAll st.root paths).map (fun r => { st with root := r, running := false })

/-- `TestData.notify_test_started` (test_data.py lines 723-746): mark the item
running, then (deferred-update repair) recompute the parents of the previously
finished test if any, then recompute the parents of the started test. -/
def notify_test_started (st : DataState) (p : List String) (startTime : Nat) :
    Option DataState :=
  (modifyGo st.root p (fun i => i.withData (update_from_started startTime i.data))).map
    (fun r =>
      let r1 := match st.last_test_finished with
        | some q => update_parent_status r q
        | none => r
      { st with root := update_parent_status r1 p, last_test_finished := none })

/-- `TestData.notify_test_finished` (test_data.py lines 754-769): record the
result on the item and remember it in `last_test_finished`; the parents are
deliberately NOT recomputed here (deferred to the next `notify_test_started`
to avoid status flicker, per the comment at lines 735-736). -/
def notify_test_finished (st : DataState) (p : List String) (status : TestStatus) :
    Option DataState :=
  (modifyGo st.root p (fun i => i.withData (update_from_finished status i.data))).map
    (fun r => { st with root := r, last_test_finished := some p })

/-- The self-healing tail of `TestData.__init__` (test_data.py lines 550-559):
when the persisted `running` flag is set, clear it, apply `notify_run_stopped`
to every leaf (`tests()` yields exactly the leaves) and recompute every
parent aggregate, all before the state is committed back to disk. -/
def healOnLoad (st : DataState) : DataState :=
  if st.running then
    { st with running := false,
              root := update_parent_statuses (mapLeaves notify_run_stopped st.root) }
  else st

/-! ## Output decoders (src/texpl/test_frameworks/) -/

/-- A notification delivered to the coordinator by a decoder: `notify_test_started`,
`notify_test_finished` and `notify_test_output` calls, in order. Start times and
messages that the claims never inspect are omitted. -/
inductive Event where
  | started (path : List String)
  | finished (path : List String) (status : TestStatus)
  | output (path : List String) (content : String)
deriving DecidableEq, Repr

/-- Classification of one line for the teamcity decoder
(src/texpl/test_frameworks/teamcity.py): the `line.startswith('##teamcity[...')`
dispatch and the `name='(.+)'` extraction of `parse_test_id` are abstracted into
this datum; `other` covers both non-teamcity lines and unrecognized teamcity
records (both fall through every branch). -/
inductive TcLine where
  | testStarted (name : String)
  | testFinished
  | testIgnored
  | testFailed
  | other
deriving DecidableEq, Repr

/-- State of the teamcity decoder (teamcity.py lines 16-17); the
`find_test_by_report_id` lookup over the captured test list is abstracted as
a function parameter of `teamcityFeed`. -/
structure TcState where
  current_test : Option (List String) := none
  current_status : TestStatus := TestStatus.PASSED

/-- `OutputParser.feed` of teamcity.py (lines 30-60). `raw` is the full text of
the line (used only for the output notification), `l` its classification. -/
def teamcityFeed (lookup : String → Option (List String)) (st : TcState)
    (raw : String) (l : TcLine) : TcState × List Event :=
  let outEvs := match st.current_test with
    | some p => [Event.output p raw]
    | none => []
  match l with
  | .testStarted name =>
    let finEvs := match st.current_test with
      | some p => [Event.finished p TestStatus.CRASHED]
      | none => []
    let ct := lookup name
    let st' : TcState := { current_test := ct, current_status := TestStatus.PASSED }
    match ct with
    | none => (st', outEvs ++ finEvs)
    | some p => (st', outEvs ++ finEvs ++ [Event.started p])
  | .testFinished =>
    match st.current_test with
    | none => (st, outEvs)
    | some p => ({ st with current_test := none }, outEvs ++ [Event.finished p st.current_status])
  | .testIgnored => ({ st with current_status := TestStatus.SKIPPED }, outEvs)
  | .testFailed => ({ st with current_status := TestStatus.FAILED }, outEvs)
  | .other => (st, outEvs)

/-- `OutputParser.close` of teamcity.py (lines 22-28): synthesize a `CRASHED`
finish for a started-but-unfinished test. -/
def teamcityClose (st : TcState) : TcState × List Event :=
  match st.current_test with
  | some p => ({ st with current_test := none }, [Event.finished p TestStatus.CRASHED])
  | none => (st, [])

/-- `PYTEST_STATUS_MAP` (src/texpl/test_frameworks/pytest.py lines 21-25);
`none` models the `KeyError` for an unmapped status string. -/
def PYTEST_STATUS_MAP (s : String) : Option TestStatus :=
  if s = "passed" then some TestStatus.PASSED
  else if s = "failed" then some TestStatus.FAILED
  else if s = "skipped" then some TestStatus.SKIPPED
  else none

/-- Python `<` on two characters: comparison of the Unicode code points. -/
def pyCharLt (a b : Char) : Bool :=
  a.val.toNat < b.val.toNat

/-- Python `<` on two strings: lexicographic comparison by code point, a
strict prefix being smaller. -/
def pyStrLtL : List Char → List Char → Bool
  | [], [] => false
  | [], _ :: _ => true
  | _ :: _, [] => false
  | a :: as, b :: bs =>
    if pyCharLt a b then true
    else if pyCharLt b a then false
    else pyStrLtL as bs

/-- Python `max` on two strings (returns the first argument on ties). -/
def maxString (a b : String) : String :=
  if pyStrLtL a.data b.data then b else a

/-- Classification of one line for the pytest decoder (pytest.py `feed`):
either the line does not carry the `SUBLIME_STATUS: ` header, or it is the
parsed JSON record with its `status` field and the `test`/`content` fields
(empty when absent). -/
inductive PyLine where
  | nonStatus
  | record (status : String) (test : String) (content : String)
deriving DecidableEq, Repr

/-- State of the pytest decoder (pytest.py lines 36-37). -/
structure PyState where
  current_test : Option (List String) := none
  current_status : Option TestStatus := none

/-- `OutputParser.finish_current_test` of pytest.py (lines 39-46). -/
def pytestFinishCurrent (st : PyState) : PyState × List Event :=
  match st.current_test with
  | none => (st, [])
  | some p =>
    let status := st.current_status.getD TestStatus.CRASHED
    ({ current_test := none, current_status := none }, [Event.finished p status])

/-- `OutputParser.feed` of pytest.py (lines 48-72). The final `else` branch is
the source's `TestStatus(max(self.current_status.value,
PYTEST_STATUS_MAP[data['status']].value))`: a Python `max` over the *string*
values of the enum members. `none` models the `KeyError` on an unmapped
sub-status (claims only feed mapped ones). -/
def pytestFeed (lookup : String → Option (List String)) (st : PyState)
    (l : PyLine) : Option (PyState × List Event) :=
  match l with
  | .nonStatus => some (st, [])
  | .record status test content =>
    if status = "started" then
      let (st1, evs1) := pytestFinishCurrent st
      let ct := lookup test
      let st2 := { st1 with current_test := ct }
      match ct with
      | none => some (st2, evs1)
      | some p => some (st2, evs1 ++ [Event.started p])
    else if status = "finished" then
      some (pytestFinishCurrent st)
    else if status = "output" then
      match st.current_test with
      | none => some (st, [])
      | some p => some (st, [Event.output p content])
    else
      let cur := st.current_status.getD TestStatus.NOT_RUN
      match PYTEST_STATUS_MAP status with
      | none => none
      | some mapped =>
        match testStatusOfValue (maxString cur.value mapped.value) with
        | none => none
        | some s => some ({ st with current_status := some s }, [])

/-- `OutputParser.close` of pytest.py (lines 74-75). -/
def pytestClose (st : PyState) : PyState × List Event :=
  pytestFinishCurrent st

/-- Feed a whole stream of lines to the pytest decoder and then `close()` it,
as `PyTest.run` does (pytest.py lines 216-220: `get_output_streamed(...,
parser.feed, ...)` followed by `parser.close()`). -/
def pytestRunStream (lookup : String → Option (List String)) (st : PyState) :
    List PyLine → Option (PyState × List Event)
  | [] => some (pytestClose st)
  | l :: rest =>
    match pytestFeed lookup st l with
    | none => none
    | some (st', evs) =>
      match pytestRunStream lookup st' rest with
      | none => none
      | some (st'', evs') => some (st'', evs ++ evs')

/-- Classification of one line for the cargo decoder
(src/texpl/test_frameworks/cargo.py): `notJson` is a line for which `get_json`
returns `None`, `json` carries the record's `type`/`event`/`name` fields. -/
inductive CargoLine where
  | notJson (raw : String)
  | json (ty ev name : String)
deriving DecidableEq, Repr

/-- State of the cargo decoder (cargo.py line 21). -/
structure CargoState where
  current_test : Option (List String) := none

/-- `OutputParser.feed` of cargo.py (lines 40-77). -/
def cargoFeed (lookup : String → Option (List String)) (st : CargoState)
    (l : CargoLine) : CargoState × List Event :=
  match l with
  | .notJson raw =>
    match st.current_test with
    | some p => (st, [Event.output p raw])
    | none => (st, [])
  | .json ty ev name =>
    if ty ≠ "test" then (st, [])
    else if ev = "started" then
      match lookup name with
      | none => ({ current_test := none }, [])
      | some p => ({ current_test := some p }, [Event.started p])
    else if ev = "ok" then
      match st.current_test with
      | none => (st, [])
      | some p => ({ current_test := none }, [Event.finished p TestStatus.PASSED])
    else if ev = "failed" then
      match st.current_test with
      | none => (st, [])
      | some p => ({ current_test := none }, [Event.finished p TestStatus.FAILED])
    else if ev = "ignored" then
      match st.current_test with
      | none => (st, [])
      | some p => ({ current_test := none }, [Event.finished p TestStatus.SKIPPED])
    else (st, [])

/-- The cargo run pipeline on a finished stream: `Cargo.run` (cargo.py lines
188-207) hands `parser.feed` to `get_output_streamed` and returns; the cargo
`OutputParser` defines no `close` method and `Cargo.run` never calls one, so
the stream ending adds nothing after the per-line feeds. -/
def cargoRunStream (lookup : String → Option (List String)) (st : CargoState) :
    List CargoLine → CargoState × List Event
  | [] => (st, [])
  | l :: rest =>
    let (st', evs) := cargoFeed lookup st l
    let (st'', evs') := cargoRunStream lookup st' rest
    (st'', evs ++ evs')

/-! ## Worker-queue engine (src/texpl/process.py and src/texpl/cmd.py) -/

/-- Exception values of the engine: the `JobError` class (process.py line 34,
cmd.py line 29), the builtin `queue.Empty` raised by a timed-out
`Queue.get`, and any other exception. There is no further error class in
either module. -/
inductive PyErr where
  | jobError (msg : String)
  | queueEmpty
  | otherExn (msg : String)
deriving DecidableEq, Repr

def PyErr.msg : PyErr → String
  | .jobError m => m
  | .queueEmpty => "queue empty"
  | .otherExn m => m

/-- What a submitted job does when executed: return a normal value, return an
exception *instance* (jobs in process.py return `JobError(...)` objects on
subprocess failure), or raise. -/
inductive JobOutcome (α : Type) where
  | val (a : α)
  | exnVal (e : PyErr)
  | raised (e : PyErr)
deriving DecidableEq, Repr

/-- `WorkQueue.next_task_id` (process.py lines 89-92) as executed without any
interleaving: increment `last_task_id` and return it. -/
def next_task_id (last_task_id : Nat) : Nat × Nat :=
  let last := last_task_id + 1
  (last, last)

/-- The task ids returned by `n` serialized `next_task_id` calls starting from
counter value `last`. -/
def taskIdsFrom (last : Nat) : Nat → List Nat
  | 0 => []
  | n + 1 =>
    let (last', tid) := next_task_id last
    tid :: taskIdsFrom last' n

/-- Per-thread view of one in-flight `next_task_id` call, decomposed into its
atomic bytecode-level memory accesses: `pc 0`: load `last_task_id` (the read
half of `+=`); `pc 1`: store the incremented value (the write half); `pc 2`:
load `last_task_id` again into the local `task_id`; `pc 3`: returned. CPython
may switch threads between any two of these, as nothing in process.py takes a
lock around `next_task_id`. -/
structure ThreadView where
  r : Nat := 0
  tid : Nat := 0
  pc : Nat := 0
deriving DecidableEq, Repr

/-- Shared plus per-thread state of two concurrent `next_task_id` calls on the
same queue. -/
structure RaceState where
  last : Nat := 0
  t1 : ThreadView := {}
  t2 : ThreadView := {}
deriving DecidableEq, Repr

/-- One atomic step of one thread's `next_task_id` call. -/
def stepThread (last : Nat) (ts : ThreadView) : Nat × ThreadView :=
  match ts.pc with
  | 0 => (last, { ts with r := last, pc := 1 })
  | 1 => (ts.r + 1, { ts with pc := 2 })
  | 2 => (last, { ts with tid := last, pc := 3 })
  | _ => (last, ts)

/-- Run a schedule (`true` = thread 1 steps, `false` = thread 2 steps) from the
initial state with `last_task_id = 0`. -/
def raceExec (sched : List Bool) : RaceState :=
  sched.foldl
    (fun s which =>
      if which then
        let (l, t) := stepThread s.last s.t1
        { s with last := l, t1 := t }
      else
        let (l, t) := stepThread s.last s.t2
        { s with last := l, t2 := t })
    {}

/-- `max_tries` (cmd.py line 36). -/
def max_tries : Nat := 100

/-- Result of `get_job_output`, together with whether `dump_stack` (which logs
the worker thread's captured stack) ran. -/
structure GetResult (α : Type) where
  stackDumped : Bool
  outcome : Except PyErr α
deriving Repr

/-- Retry loop of `get_job_output` (cmd.py lines 105-124) on the
`timeout=None` path, driven by the outcome of each short 0.1 s poll:
`gets k` is what the `k`-th `queue.get(timeout=0.1)` attempt yields (`none` =
it raised `queue.Empty`). `fuel` is `max_tries - num_tries`; when the 100th
consecutive poll fails, the stack is dumped and the caught `queue.Empty`
exception is re-raised. -/
def getLoop (gets : Nat → Option α) (k : Nat) : Nat → GetResult α
  | 0 => { stackDumped := true, outcome := Except.error PyErr.queueEmpty }
  | fuel + 1 =>
    match gets k with
    | some v => { stackDumped := false, outcome := Except.ok v }
    | none => getLoop gets (k + 1) fuel

/-- `get_job_output(task_id, timeout=None)` (cmd.py lines 105-124). -/
def get_job_output (gets : Nat → Option α) : GetResult α :=
  getLoop gets 0 max_tries

/-- How `Cmd.worker_run` surfaces a failed result wait (cmd.py lines 200-212):
any exception from `get_job_output` is caught and replaced by
`JobError("Could not execute command: %s" % e)`, which is then raised. -/
def workerWaitResult (gets : Nat → Option α) : GetResult α :=
  let g := get_job_output gets
  match g.outcome with
  | Except.ok v => { g with outcome := Except.ok v }
  | Except.error e =>
    { g with outcome := Except.error (PyErr.jobError ("Could not execute command: " ++ e.msg)) }

/-- Trace of one `worker_run` invocation: whether the job was pushed on the
worker queue, whether the caller blocked on the result channel, and what the
call returned or raised. -/
structure RunTrace (α : Type) where
  pushed : Bool
  waited : Bool
  outcome : Except PyErr α
deriving Repr

/-- `worker_run` (process.py lines 141-166). `callerIdent` is
`threading.get_ident()`, `workerIdent` the queue's worker thread ident. On the
re-entrant path the job runs in-line: a returned exception instance is raised
and a raised exception propagates; nothing is pushed or waited for. On the
cross-thread path the job is pushed and the worker loop
(`process_queue_one`, lines 63-76) wraps a raised exception into
`JobError("Unhandled exception in queue command: ...")` before handing the
output back through the result channel. -/
def worker_run (callerIdent workerIdent : Nat) (job : JobOutcome α) : RunTrace α :=
  if callerIdent = workerIdent then
    match job with
    | .val a => { pushed := false, waited := false, outcome := Except.ok a }
    | .exnVal e => { pushed := false, waited := false, outcome := Except.error e }
    | .raised e => { pushed := false, waited := false, outcome := Except.error e }
  else
    let outputs : Except PyErr α :=
      match job with
      | .val a => Except.ok a
      | .exnVal e => Except.error e
      | .raised e => Except.error (PyErr.jobError ("Unhandled exception in queue command: " ++ e.msg))
    { pushed := true, waited := true, outcome := outputs }

/-! ## Per-suite run loop (src/texpl/run.py) -/

/-- Observable outcome of `TestRunHelper.run_tests` (run.py lines 48-105):
which suites had `suite.run` invoked (in order), whether
`notify_run_finished` was delivered, and the error logged by the outer
`except` handler, if any. -/
structure RunOutcome where
  invoked : List String := []
  runFinishedDelivered : Bool := false
  loggedError : Option String := none
deriving DecidableEq, Repr

/-- The `for suite_id, grouped_tests in test_ids.items()` loop (run.py lines
87-95): a missing suite logs a warning and `continue`s; a raised error from
`suite.run` propagates out of the loop (there is no per-suite handler).
Returns the invoked suite ids and the escaping error. -/
def runSuitesLoop (suiteRun : String → Option (List String → Except String Unit)) :
    List (String × List String) → List String × Option String
  | [] => ([], none)
  | (sid, tests) :: rest =>
    match suiteRun sid with
    | none => runSuitesLoop suiteRun rest
    | some f =>
      match f tests with
      | Except.ok _ =>
        let (inv, err) := runSuitesLoop suiteRun rest
        (sid :: inv, err)
      | Except.error e => ([sid], some e)

/-- `run_tests` around the loop (run.py lines 86-105): the `finally` block
always delivers `notify_run_finished` for the whole run, and the outer
`except Exception` logs the escaping error. -/
def run_tests_model (suiteRun : String → Option (List String → Except String Unit))
    (groups : List (String × List String)) : RunOutcome :=
  let (inv, err) := runSuitesLoop suiteRun groups
  { invoked := inv, runFinishedDelivered := true, loggedError := err }

/-! ## Auxiliary notions for stating and proving the tree invariants -/

/-- `p` is a proper prefix of `q` (a strict ancestor path). -/
def ProperPref (p q : List String) : Prop :=
  p <+: q ∧ p ≠ q

instance (p q : List String) : Decidable (ProperPref p q) := by
  unfold ProperPref; infer_instance

/-- The shape observed at path `q`: `none` when no node is there, otherwise
whether the node is internal (has a children dict). -/
def shapeAt (t : TestItem) (q : List String) : Option Bool :=
  (find_test t q).map (fun i => i.children.isSome)

/-- Some path in the exception list is non-empty (so the node itself is a
strict ancestor of one of the exception paths). -/
def anyNonempty (qs : List (List String)) : Bool :=
  qs.any (fun q => !q.isEmpty)

/-- Re-root the exception paths at child `k`: keep the tails of the paths that
start with `k`. -/
def childExc (k : String) (qs : List (List String)) : List (List String) :=
  qs.filterMap (fun q =>
    match q with
    | [] => none
    | k' :: r => if k' = k then some r else none)

mutual
/-- The aggregation invariant holds at every node of the tree except possibly
at strict ancestors of the given (relative) exception paths. -/
def consistentExceptB : TestItem → List (List String) → Bool
  | .mk _ none, _ => true
  | .mk d (some cs), qs =>
    (consistentAtB (.mk d (some cs)) || anyNonempty qs) && consistentExceptAll cs qs

/-- The exception-aware invariant for every child subtree. -/
def consistentExceptAll : List (String × TestItem) → List (List String) → Bool
  | [], _ => true
  | (k, c) :: rest, qs =>
    consistentExceptB c (childExc k qs) && consistentExceptAll rest qs
end

/-- The exception paths pending repair in a coordinator state: the parents of
`last_test_finished` have not been recomputed yet (deferred to the next
`notify_test_started`). -/
def pendingExc (st : DataState) : List (List String) :=
  match st.last_test_finished with
  | some q => [q]
  | none => []

/-! ## Claims C2, C3, C6, C7, C8, C9 -/

/-- C2 (counterexample): the line-oriented JSON decoder (cargo.py
`OutputParser`) fed exactly one started event for `T1` and then reaching end
of stream yields NO synthesized `testFinished` at all — not one
`testFinished(T1, CRASHED)` as the claim states: the cargo decoder defines no
`close()` method and `Cargo.run` never calls one. -/
theorem C2_counterexample :
    (cargoRunStream (fun s => if s = "T1" then some ["T1"] else none) {}
        [CargoLine.json "test" "started" "T1"]).2 = [Event.started ["T1"]] ∧
    ((cargoRunStream (fun s => if s = "T1" then some ["T1"] else none) {}
        [CargoLine.json "test" "started" "T1"]).2.filter
      (fun e => match e with | Event.finished _ _ => true | _ => false)) = [] := by
  exact ⟨rfl, rfl⟩

/-- C2 (amended): the decoders that define `close()` synthesize exactly one
`testFinished(p, CRASHED)` for a started-but-unfinished test and never a
second one (teamcity.py unconditionally; pytest.py when no sub-result status
was recorded before the stream ended), while the cargo decoder has no
`close()` and its run pipeline emits nothing at end of stream. -/
theorem C2_amended :
    (∀ (st : TcState) (p : List String), st.current_test = some p →
       teamcityClose st = ({ st with current_test := none },
         [Event.finished p TestStatus.CRASHED]) ∧
       (teamcityClose { st with current_test := none }).2 = []) ∧
    (∀ (st : PyState) (p : List String), st.current_test = some p →
       st.current_status = none →
       pytestClose st = ({ current_test := none, current_status := none },
         [Event.finished p TestStatus.CRASHED])) ∧
    (∀ (lookup : String → Option (List String)) (st : CargoState),
       cargoRunStream lookup st [] = (st, [])) := by
  refine ⟨?_, ?_, ?_⟩
  · intro st p h
    constructor
    · unfold teamcityClose
      rw [h]
    · unfold teamcityClose
      rfl
  · intro st p h hs
    unfold pytestClose pytestFinishCurrent
    rw [h, hs]
    rfl
  · intro lookup st
    rfl

/-- C2 (witness for the amended theorem): instantiation at concrete decoder
states holding a started test `T1`. -/
theorem C2_amended_witness :
    (({ current_test := some ["T1"] } : TcState).current_test = some ["T1"] ∧
     ({ current_test := some ["T1"] } : PyState).current_test = some ["T1"] ∧
     ({ current_test := some ["T1"] } : PyState).current_status = none) ∧
    (teamcityClose { current_test := some ["T1"] } =
       ({ current_test := none, current_status := TestStatus.PASSED },
        [Event.finished ["T1"] TestStatus.CRASHED]) ∧
     pytestClose { current_test := some ["T1"] } =
       ({ current_test := none, current_status := none },
        [Event.finished ["T1"] TestStatus.CRASHED]) ∧
     cargoRunStream (fun _ => none) { current_test := some ["T1"] } [] =
       ({ current_test := some ["T1"] }, [])) := by
  refine ⟨⟨rfl, rfl, rfl⟩, ?_, ?_, ?_⟩
  · exact (C2_amended.1 { current_test := some ["T1"] } ["T1"] rfl).1
  · exact C2_amended.2.1 { current_test := some ["T1"] } ["T1"] rfl rfl
  · exact C2_amended.2.2 (fun _ => none) { current_test := some ["T1"] }

/-- C3: evaluating the pytest decoder on the claim's own scenario — a started
test with one `failed` sub-result among `passed` ones, then the finishing
record. The code delivers `testFinished(T1, PASSED)`, because pytest.py line
72 takes a Python `max` over the enum members' *string* values (and
`"passed" > "failed"` lexicographically), while the declared severity merge
of the same sub-results (`status_merge`, the order the spec states) is
`FAILED`. -/
theorem C3_string_max_eval :
    pytestRunStream (fun s => if s = "T1" then some ["T1"] else none) {}
      [PyLine.record "started" "T1" "", PyLine.record "passed" "" "",
       PyLine.record "failed" "" "", PyLine.record "finished" "" ""] =
      some ({ current_test := none, current_status := none },
            [Event.started ["T1"], Event.finished ["T1"] TestStatus.PASSED]) ∧
    status_merge (status_merge TestStatus.NOT_RUN TestStatus.PASSED) TestStatus.FAILED =
      TestStatus.FAILED := by
  exact ⟨rfl, rfl⟩

/-- C6 (counterexample): an interleaving of two concurrent `next_task_id`
calls on the same queue in which both threads complete and both are issued
task id 1 — the `last_task_id += 1` increment is not protected by any lock,
so ids are not unique under concurrent submission. -/
theorem C6_counterexample :
    (raceExec [true, false, true, true, false, false]).t1.pc = 3 ∧
    (raceExec [true, false, true, true, false, false]).t2.pc = 3 ∧
    (raceExec [true, false, true, true, false, false]).t1.tid = 1 ∧
    (raceExec [true, false, true, true, false, false]).t2.tid = 1 := by
  exact ⟨rfl, rfl, rfl, rfl⟩

/-- C6 (amended): task ids issued by one queue are strictly increasing and
never reused when the `next_task_id` calls do not interleave: `n` serialized
calls from counter value `last` yield exactly `last+1, ..., last+n`, a
strictly increasing duplicate-free sequence. (Concurrent unsynchronized
calls can duplicate ids, see the counterexample.) -/
theorem C6_amended :
    (∀ last n, taskIdsFrom last n = List.range' (last + 1) n) ∧
    (∀ last n, (taskIdsFrom last n).Chain' (· < ·)) ∧
    (∀ last n, (taskIdsFrom last n).Nodup) := by
  have formula : ∀ n last, taskIdsFrom last n = List.range' (last + 1) n := by
    intro n
    induction n with
    | zero => intro last; rfl
    | succ m ih =>
      intro last
      show (last + 1) :: taskIdsFrom (last + 1) m = _
      rw [ih (last + 1), List.range'_succ]
  have chain : ∀ n last, List.Chain' (· < ·) (taskIdsFrom last n) := by
    intro n
    induction n with
    | zero => intro last; exact List.chain'_nil
    | succ m ih =>
      intro last
      cases m with
      | zero => exact List.chain'_singleton _
      | succ k =>
        show List.Chain' (· < ·) ((last + 1) :: (last + 2) :: taskIdsFrom (last + 2) k)
        exact List.Chain'.cons (Nat.lt_succ_self _) (ih (last + 1))
  refine ⟨fun last n => formula n last, fun last n => chain n last, ?_⟩
  intro last n
  have np : List.Pairwise (· < ·) (taskIdsFrom last n) :=
    List.chain'_iff_pairwise.mp (chain n last)
  exact np.imp (fun h => Nat.ne_of_lt h)

/-- C7: a `worker_run` invocation whose calling thread IS the worker thread of
the targeted queue executes the job immediately in-line — nothing is pushed
on the worker queue and nothing waits on the result channel — and the job's
outcome is surfaced directly (a value is returned; a returned exception
instance is raised; a raised exception propagates), so the re-entrant call
cannot self-deadlock. -/
theorem C7_reentrant_inline (α : Type) (ident : Nat) (a : α) (e : PyErr) :
    worker_run ident ident (JobOutcome.val a) =
      { pushed := false, waited := false, outcome := Except.ok a } ∧
    worker_run ident ident (JobOutcome.exnVal e : JobOutcome α) =
      { pushed := false, waited := false, outcome := Except.error e } ∧
    worker_run ident ident (JobOutcome.raised e : JobOutcome α) =
      { pushed := false, waited := false, outcome := Except.error e } := by
  unfold worker_run
  simp

/-- C8 (counterexample): when every poll of the result channel comes back
empty, `get_job_output` exhausts its 100-poll retry budget, logs the worker
thread's stack (`stackDumped = true`), and the failure that `worker_run`
surfaces is the generic `JobError` — not a distinct `JobTimeout` kind, which
exists nowhere in process.py or cmd.py. -/
theorem C8_counterexample :
    workerWaitResult (fun _ => (none : Option Nat)) =
      { stackDumped := true,
        outcome := Except.error (PyErr.jobError "Could not execute command: queue empty") } := by
  rfl

/-- C8 (amended): a result wait whose first 100 (`max_tries`) polls all come
back empty logs the worker thread's captured stack and re-raises the caught
queue-empty exception, which `Cmd.worker_run` then wraps into the generic
`JobError`; no distinct `JobTimeout` error kind exists in the code. -/
theorem C8_amended (α : Type) (gets : Nat → Option α)
    (h : ∀ k, k < max_tries → gets k = none) :
    get_job_output gets =
      { stackDumped := true, outcome := Except.error PyErr.queueEmpty } ∧
    workerWaitResult gets =
      { stackDumped := true,
        outcome := Except.error (PyErr.jobError "Could not execute command: queue empty") } := by
  have loop : ∀ (fuel k : Nat), (∀ j, j < fuel → gets (k + j) = none) →
      getLoop gets k fuel =
        { stackDumped := true, outcome := Except.error PyErr.queueEmpty } := by
    intro fuel
    induction fuel with
    | zero => intro k _; rfl
    | succ m ih =>
      intro k hk
      have h0 : gets k = none := by
        have := hk 0 (Nat.succ_pos m)
        simpa using this
      show (match gets k with
        | some v => ({ stackDumped := false, outcome := Except.ok v } : GetResult α)
        | none => getLoop gets (k + 1) m) = _
      rw [h0]
      exact ih (k + 1) (fun j hj => by
        have := hk (j + 1) (Nat.succ_lt_succ hj)
        simpa [Nat.add_assoc, Nat.add_comm 1 j] using this)
  have hget : get_job_output gets =
      { stackDumped := true, outcome := Except.error PyErr.queueEmpty } := by
    unfold get_job_output
    exact loop max_tries 0 (fun j hj => by simpa using h j hj)
  refine ⟨hget, ?_⟩
  unfold workerWaitResult
  rw [hget]
  rfl

/-- C8 (witness): the amended theorem applied to the always-empty poll
stream. -/
theorem C8_amended_witness :
    (∀ k, k < max_tries → (fun _ => (none : Option Nat)) k = none) ∧
    get_job_output (fun _ => (none : Option Nat)) =
      { stackDumped := true, outcome := Except.error PyErr.queueEmpty } := by
  exact ⟨fun k _ => rfl, (C8_amended Nat (fun _ => none) (fun k _ => rfl)).1⟩

/-- C9 (counterexample): two suites where the first one's `run` raises: the
second suite's `run` is never invoked (the claim says the loop continues with
the remaining suites), although `notify_run_finished` is still delivered and
the failure is logged. -/
theorem C9_counterexample :
    run_tests_model
        (fun sid => if sid = "s1" then some (fun _ => Except.error "boom")
                    else if sid = "s2" then some (fun _ => Except.ok ()) else none)
        [("s1", ["t"]), ("s2", ["u"])] =
      { invoked := ["s1"], runFinishedDelivered := true, loggedError := some "boom" } ∧
    "s2" ∉ (run_tests_model
        (fun sid => if sid = "s1" then some (fun _ => Except.error "boom")
                    else if sid = "s2" then some (fun _ => Except.ok ()) else none)
        [("s1", ["t"]), ("s2", ["u"])]).invoked := by
  constructor
  · rfl
  · intro hmem
    have : (run_tests_model
        (fun sid => if sid = "s1" then some (fun _ => Except.error "boom")
                    else if sid = "s2" then some (fun _ => Except.ok ()) else none)
        [("s1", ["t"]), ("s2", ["u"])]).invoked = ["s1"] := rfl
    rw [this] at hmem
    simp at hmem

/-- C9 (amended): an error raised while running one framework's tests aborts
the runs of the remaining frameworks: `run_tests` invokes the found suites in
order up to and including the failing one and none after it; the `finally`
block still delivers `notify_run_finished` for the whole run, and the failure
is caught and logged once by the outer handler. Only a suite id that is not
found is skipped with the loop continuing. -/
theorem C9_amended (suiteRun : String → Option (List String → Except String Unit))
    (pre post : List (String × List String)) (mid : String) (tests : List String)
    (f : List String → Except String Unit) (e : String)
    (hpre : ∀ g ∈ pre, ∀ r, suiteRun g.1 = some r → r g.2 = Except.ok ())
    (hmid : suiteRun mid = some f) (herr : f tests = Except.error e) :
    run_tests_model suiteRun (pre ++ (mid, tests) :: post) =
      { invoked := (pre.filter (fun g => (suiteRun g.1).isSome)).map Prod.fst ++ [mid],
        runFinishedDelivered := true,
        loggedError := some e } := by
  have loop : ∀ (l : List (String × List String)),
      (∀ g ∈ l, ∀ r, suiteRun g.1 = some r → r g.2 = Except.ok ()) →
      runSuitesLoop suiteRun (l ++ (mid, tests) :: post) =
        ((l.filter (fun g => (suiteRun g.1).isSome)).map Prod.fst ++ [mid], some e) := by
    intro l
    induction l with
    | nil =>
      intro _
      show runSuitesLoop suiteRun ((mid, tests) :: post) = _
      simp only [runSuitesLoop, hmid, herr]
      rfl
    | cons g rest ih =>
      intro hl
      have hg : (g.1, g.2) = g := rfl
      show runSuitesLoop suiteRun ((g.1, g.2) :: (rest ++ (mid, tests) :: post)) = _
      cases hr : suiteRun g.1 with
      | none =>
        simp only [runSuitesLoop, hr]
        rw [ih (fun g' hg' => hl g' (List.mem_cons_of_mem _ hg'))]
        simp [List.filter_cons, hr]
      | some r =>
        have hok : r g.2 = Except.ok () := hl g (List.mem_cons_self _ _) r hr
        simp only [runSuitesLoop, hr, hok]
        rw [ih (fun g' hg' => hl g' (List.mem_cons_of_mem _ hg'))]
        simp [List.filter_cons, hr]
  unfold run_tests_model
  rw [loop pre hpre]

/-- C9 (witness): the amended theorem applied to a concrete three-suite run
where the second suite fails. -/
theorem C9_amended_witness :
    ((∀ g ∈ [(("s0", ["v"]) : String × List String)], ∀ r,
        (fun sid => if sid = "s0" then some (fun _ => Except.ok ())
                    else if sid = "s1" then some (fun _ => (Except.error "boom" : Except String Unit))
                    else none) g.1 = some r → r g.2 = Except.ok ())) ∧
    run_tests_model
        (fun sid => if sid = "s0" then some (fun _ => Except.ok ())
                    else if sid = "s1" then some (fun _ => (Except.error "boom" : Except String Unit))
                    else none)
        ([("s0", ["v"])] ++ ("s1", ["t"]) :: [("s2", ["u"])]) =
      { invoked := ["s0", "s1"], runFinishedDelivered := true, loggedError := some "boom" } := by
  constructor
  · intro g hg r hr
    simp at hg
    subst hg
    simp at hr
    subst hr
    rfl
  · have h := C9_amended
      (fun sid => if sid = "s0" then some (fun _ => Except.ok ())
                  else if sid = "s1" then some (fun _ => (Except.error "boom" : Except String Unit))
                  else none)
      [("s0", ["v"])] [("s2", ["u"])] "s1" ["t"]
      (fun _ => Except.error "boom") "boom"
      (by
        intro g hg r hr
        simp at hg
        subst hg
        simp at hr
        subst hr
        rfl)
      (by rfl) (by rfl)
    simpa using h

/-! ## Association-list lemmas -/

theorem lookupA_removeA_ne (cs : List (String × TestItem)) (k k' : String) (h : k' ≠ k) :
    lookupA (removeA cs k) k' = lookupA cs k' := by
  induction cs with
  | nil => rfl
  | cons kv rest ih =>
    obtain ⟨a, v⟩ := kv
    by_cases ha : a = k
    · subst ha
      simp [removeA, lookupA, ih, Ne.symm h]
    · simp only [removeA, lookupA, if_neg ha]
      by_cases ha' : a = k'
      · simp [lookupA, ha']
      · simp [lookupA, ha', ih]

theorem lookupA_insertA_self (cs : List (String × TestItem)) (k : String) (v : TestItem) :
    lookupA (insertA cs k v) k = some v := by
  induction cs with
  | nil => simp [insertA, lookupA]
  | cons kv rest ih =>
    obtain ⟨a, w⟩ := kv
    by_cases ha : a = k
    · simp [insertA, lookupA, ha]
    · simp [insertA, lookupA, ha, ih]

theorem lookupA_insertA_ne (cs : List (String × TestItem)) (k : String) (v : TestItem)
    (k' : String) (h : k' ≠ k) :
    lookupA (insertA cs k v) k' = lookupA cs k' := by
  induction cs with
  | nil => simp [insertA, lookupA, Ne.symm h]
  | cons kv rest ih =>
    obtain ⟨a, w⟩ := kv
    by_cases ha : a = k
    · subst ha
      simp [insertA, lookupA, Ne.symm h, lookupA_removeA_ne rest _ _ h]
    · simp only [insertA, lookupA, if_neg ha]
      by_cases ha' : a = k'
      · simp [lookupA, ha']
      · simp [lookupA, ha', ih]

theorem mem_removeA {cs : List (String × TestItem)} {k : String} {e : String × TestItem}
    (h : e ∈ removeA cs k) : e ∈ cs ∧ e.1 ≠ k := by
  induction cs with
  | nil => simp [removeA] at h
  | cons kv rest ih =>
    obtain ⟨a, v⟩ := kv
    by_cases ha : a = k
    · rw [removeA, if_pos ha] at h
      obtain ⟨h1, h2⟩ := ih h
      exact ⟨List.mem_cons_of_mem _ h1, h2⟩
    · rw [removeA, if_neg ha] at h
      rcases List.mem_cons.mp h with he | he
      · subst he
        exact ⟨List.mem_cons_self _ _, ha⟩
      · obtain ⟨h1, h2⟩ := ih he
        exact ⟨List.mem_cons_of_mem _ h1, h2⟩

theorem mem_insertA {cs : List (String × TestItem)} {a : String} {c' : TestItem}
    {e : String × TestItem} (h : e ∈ insertA cs a c') :
    e = (a, c') ∨ (e ∈ cs ∧ e.1 ≠ a) := by
  induction cs with
  | nil =>
    simp [insertA] at h
    exact Or.inl h
  | cons kv rest ih =>
    obtain ⟨k, w⟩ := kv
    by_cases hk : k = a
    · rw [insertA, if_pos hk] at h
      rcases List.mem_cons.mp h with he | he
      · exact Or.inl he
      · obtain ⟨h1, h2⟩ := mem_removeA he
        exact Or.inr ⟨List.mem_cons_of_mem _ h1, h2⟩
    · rw [insertA, if_neg hk] at h
      rcases List.mem_cons.mp h with he | he
      · subst he
        exact Or.inr ⟨List.mem_cons_self _ _, hk⟩
      · rcases ih he with h1 | ⟨h1, h2⟩
        · exact Or.inl h1
        · exact Or.inr ⟨List.mem_cons_of_mem _ h1, h2⟩

/-! ## Walk lemmas: `find_test` against `upsGo` and `modifyGo` -/

theorem upsGo_isSome : ∀ (q : List String) (t : TestItem),
    (upsGo t q).isSome = (find_test t q).isSome
  | [], _ => rfl
  | _ :: _, .mk _ none => rfl
  | a :: qr, .mk d (some cs) => by
    simp only [upsGo, find_test, TestItem.children_mk]
    cases lookupA cs a with
    | none => rfl
    | some c =>
      simp only []
      have := upsGo_isSome qr c
      cases h : upsGo c qr with
      | none =>
        rw [h] at this
        cases h2 : find_test c qr with
        | none => rfl
        | some i => rw [h2] at this; simp at this
      | some c' =>
        rw [h] at this
        cases h2 : find_test c qr with
        | none => rw [h2] at this; simp at this
        | some i => rfl

theorem modifyGo_isSome : ∀ (p : List String) (t : TestItem) (f : TestItem → TestItem),
    (modifyGo t p f).isSome = (find_test t p).isSome
  | [], _, _ => rfl
  | _ :: _, .mk _ none, _ => rfl
  | a :: pr, .mk d (some cs), f => by
    simp only [modifyGo, find_test, TestItem.children_mk]
    cases lookupA cs a with
    | none => rfl
    | some c =>
      simp only []
      have := modifyGo_isSome pr c f
      cases h : modifyGo c pr f with
      | none =>
        rw [h] at this
        cases h2 : find_test c pr with
        | none => rfl
        | some i => rw [h2] at this; simp at this
      | some c' =>
        rw [h] at this
        cases h2 : find_test c pr with
        | none => rw [h2] at this; simp at this
        | some i => rfl

theorem recompute_children (d : ItemData) (cs : List (String × TestItem)) :
    (recompute_status (.mk d (some cs))).children = some cs := rfl

theorem recompute_data_statuses (d : ItemData) (cs : List (String × TestItem)) :
    (recompute_status (.mk d (some cs))).data =
      { d with last_status := childStatusFold cs, run_status := childRunFold cs } := rfl

/-- After a successful `upsGo` along `q`, every path that is not a strict
ancestor of `q` resolves to exactly the same node as before (only strict
ancestors of `q` are recomputed). -/
theorem upsGo_find : ∀ (q : List String) (t t' : TestItem),
    upsGo t q = some t' → ∀ (p : List String), ¬ ProperPref p q →
    find_test t' p = find_test t p
  | [], t, t', h, p, _ => by
    cases h
    rfl
  | a :: qr, .mk d none, t', h, p, _ => by
    simp [upsGo] at h
  | a :: qr, .mk d (some cs), t', h, p, hp => by
    simp only [upsGo, TestItem.children_mk] at h
    cases hc : lookupA cs a with
    | none => rw [hc] at h; simp at h
    | some c =>
      rw [hc] at h
      simp only [] at h
      cases hu : upsGo c qr with
      | none => rw [hu] at h; simp at h
      | some c' =>
        rw [hu] at h
        simp only [Option.some.injEq] at h
        subst h
        cases p with
        | nil =>
          exfalso
          exact hp ⟨List.nil_prefix, by simp⟩
        | cons b pr =>
          show (match lookupA (insertA cs a c') b with
                | none => none
                | some c2 => find_test c2 pr)
              = (match lookupA cs b with
                | none => none
                | some c2 => find_test c2 pr)
          by_cases hb : b = a
          · subst hb
            rw [lookupA_insertA_self, hc]
            exact upsGo_find qr c c' hu pr (by
              intro hpp
              obtain ⟨hpre, hne⟩ := hpp
              exact hp ⟨List.cons_prefix_cons.mpr ⟨rfl, hpre⟩, by simp [hne]⟩)
          · rw [lookupA_insertA_ne cs a c' b hb]

/-- A successful `upsGo` never changes the shape of the tree: the same paths
exist and leaves stay leaves. -/
theorem upsGo_shape : ∀ (q : List String) (t t' : TestItem),
    upsGo t q = some t' → ∀ (p : List String), shapeAt t' p = shapeAt t p
  | [], t, t', h, p => by cases h; rfl
  | a :: qr, .mk d none, t', h, p => by simp [upsGo] at h
  | a :: qr, .mk d (some cs), t', h, p => by
    simp only [upsGo, TestItem.children_mk] at h
    cases hc : lookupA cs a with
    | none => rw [hc] at h; simp at h
    | some c =>
      rw [hc] at h
      simp only [] at h
      cases hu : upsGo c qr with
      | none => rw [hu] at h; simp at h
      | some c' =>
        rw [hu] at h
        simp only [Option.some.injEq] at h
        subst h
        cases p with
        | nil => rfl
        | cons b pr =>
          show ((match lookupA (insertA cs a c') b with
                 | none => none
                 | some c2 => find_test c2 pr).map (fun (i : TestItem) => i.children.isSome))
              = ((match lookupA cs b with
                 | none => none
                 | some c2 => find_test c2 pr).map (fun (i : TestItem) => i.children.isSome))
          by_cases hb : b = a
          · subst hb
            rw [lookupA_insertA_self, hc]
            exact upsGo_shape qr c c' hu pr
          · rw [lookupA_insertA_ne cs a c' b hb]

/-- After a successful `modifyGo` at `p`, the node at `p` is `f` of what was
there. -/
theorem modifyGo_at : ∀ (p : List String) (t : TestItem) (f : TestItem → TestItem)
    (t' : TestItem), modifyGo t p f = some t' →
    ∃ i, find_test t p = some i ∧ find_test t' p = some (f i)
  | [], t, f, t', h => by
    cases h
    exact ⟨t, rfl, rfl⟩
  | a :: pr, .mk d none, f, t', h => by simp [modifyGo] at h
  | a :: pr, .mk d (some cs), f, t', h => by
    simp only [modifyGo, TestItem.children_mk] at h
    cases hc : lookupA cs a with
    | none => rw [hc] at h; simp at h
    | some c =>
      rw [hc] at h
      simp only [] at h
      cases hm : modifyGo c pr f with
      | none => rw [hm] at h; simp at h
      | some c' =>
        rw [hm] at h
        simp only [Option.some.injEq] at h
        subst h
        obtain ⟨i, hi1, hi2⟩ := modifyGo_at pr c f c' hm
        refine ⟨i, ?_, ?_⟩
        · show (match lookupA cs a with
                | none => none
                | some c2 => find_test c2 pr) = some i
          rw [hc]
          exact hi1
        · show (match lookupA (insertA cs a c') a with
                | none => none
                | some c2 => find_test c2 pr) = some (f i)
          rw [lookupA_insertA_self]
          exact hi2

/-- After a successful `modifyGo` at `p`, any path that does not lead into `p`
(is not a prefix of `p`) resolves to the same node as before, provided `f`
preserves the children dictionary. -/
theorem modifyGo_find : ∀ (p : List String) (t : TestItem) (f : TestItem → TestItem)
    (t' : TestItem), modifyGo t p f = some t' →
    (∀ i, (f i).children = i.children) →
    ∀ (q : List String), ¬ q <+: p → find_test t' q = find_test t q
  | [], t, f, t', h, hf, q, hq => by
    cases h
    cases q with
    | nil => exact absurd List.nil_prefix hq
    | cons b qr =>
      rw [find_test, find_test, hf t]
  | a :: pr, .mk d none, f, t', h, hf, q, hq => by simp [modifyGo] at h
  | a :: pr, .mk d (some cs), f, t', h, hf, q, hq => by
    simp only [modifyGo, TestItem.children_mk] at h
    cases hc : lookupA cs a with
    | none => rw [hc] at h; simp at h
    | some c =>
      rw [hc] at h
      simp only [] at h
      cases hm : modifyGo c pr f with
      | none => rw [hm] at h; simp at h
      | some c' =>
        rw [hm] at h
        simp only [Option.some.injEq] at h
        subst h
        cases q with
        | nil => exact absurd List.nil_prefix hq
        | cons b qr =>
          show (match lookupA (insertA cs a c') b with
                | none => none
                | some c2 => find_test c2 qr)
              = (match lookupA cs b with
                | none => none
                | some c2 => find_test c2 qr)
          by_cases hb : b = a
          · subst hb
            rw [lookupA_insertA_self, hc]
            exact modifyGo_find pr c f c' hm hf qr (by
              intro hpre
              exact hq (List.cons_prefix_cons.mpr ⟨rfl, hpre⟩))
          · rw [lookupA_insertA_ne cs a c' b hb]

/-- A successful `modifyGo` with a children-preserving `f` never changes the
shape of the tree. -/
theorem modifyGo_shape : ∀ (p : List String) (t : TestItem) (f : TestItem → TestItem)
    (t' : TestItem), modifyGo t p f = some t' →
    (∀ i, (f i).children = i.children) →
    ∀ (q : List String), shapeAt t' q = shapeAt t q
  | [], t, f, t', h, hf, q => by
    cases h
    cases q with
    | nil =>
      unfold shapeAt
      rw [show find_test (f t) [] = some (f t) from rfl,
          show find_test t [] = some t from rfl]
      simp [hf t]
    | cons b qr =>
      unfold shapeAt
      rw [find_test, find_test, hf t]
  | a :: pr, .mk d none, f, t', h, hf, q => by simp [modifyGo] at h
  | a :: pr, .mk d (some cs), f, t', h, hf, q => by
    simp only [modifyGo, TestItem.children_mk] at h
    cases hc : lookupA cs a with
    | none => rw [hc] at h; simp at h
    | some c =>
      rw [hc] at h
      simp only [] at h
      cases hm : modifyGo c pr f with
      | none => rw [hm] at h; simp at h
      | some c' =>
        rw [hm] at h
        simp only [Option.some.injEq] at h
        subst h
        cases q with
        | nil => rfl
        | cons b qr =>
          show ((match lookupA (insertA cs a c') b with
                 | none => none
                 | some c2 => find_test c2 qr).map (fun (i : TestItem) => i.children.isSome))
              = ((match lookupA cs b with
                 | none => none
                 | some c2 => find_test c2 qr).map (fun (i : TestItem) => i.children.isSome))
          by_cases hb : b = a
          · subst hb
            rw [lookupA_insertA_self, hc]
            exact modifyGo_shape pr c f c' hm hf qr
          · rw [lookupA_insertA_ne cs a c' b hb]

/-! ## Consistency lemmas -/

theorem lookupA_mem {cs : List (String × TestItem)} {k : String} {v : TestItem}
    (h : lookupA cs k = some v) : (k, v) ∈ cs := by
  induction cs with
  | nil => simp [lookupA] at h
  | cons kv rest ih =>
    obtain ⟨a, w⟩ := kv
    by_cases ha : a = k
    · subst ha
      rw [lookupA, if_pos rfl] at h
      cases h
      exact List.mem_cons_self _ _
    · rw [lookupA, if_neg ha] at h
      exact List.mem_cons_of_mem _ (ih h)

theorem consistentB_internal (d : ItemData) (cs : List (String × TestItem)) :
    consistentB (.mk d (some cs)) = (consistentAtB (.mk d (some cs)) && consistentAllB cs) :=
  rfl

theorem consistentB_leaf (d : ItemData) : consistentB (.mk d none) = true := rfl

theorem consistentAllB_mem : ∀ (cs : List (String × TestItem)),
    consistentAllB cs = true → ∀ {k : String} {c : TestItem}, (k, c) ∈ cs →
    consistentB c = true
  | [], _, _, _, h => by simp at h
  | (k0, c0) :: rest, hall, k, c, h => by
    have hall' : consistentB c0 = true ∧ consistentAllB rest = true := by
      have : (consistentB c0 && consistentAllB rest) = true := hall
      exact Bool.and_eq_true_iff.mp this
    rcases List.mem_cons.mp h with he | he
    · cases he
      exact hall'.1
    · exact consistentAllB_mem rest hall'.2 he

theorem find_consistent : ∀ (p : List String) (t : TestItem),
    consistentB t = true → ∀ {i : TestItem}, find_test t p = some i → consistentB i = true
  | [], t, ht, i, h => by cases h; exact ht
  | a :: pr, .mk d none, ht, i, h => by simp [find_test] at h
  | a :: pr, .mk d (some cs), ht, i, h => by
    have h2 : (match lookupA cs a with
        | none => none
        | some c => find_test c pr) = some i := h
    cases hc : lookupA cs a with
    | none => rw [hc] at h2; simp at h2
    | some c =>
      rw [hc] at h2
      have hcs : consistentAllB cs = true := by
        have := (Bool.and_eq_true_iff.mp (consistentB_internal d cs ▸ ht)).2
        exact this
      exact find_consistent pr c (consistentAllB_mem cs hcs (lookupA_mem hc)) h2

theorem leaf_consistent {i : TestItem} (h : i.children = none) : consistentB i = true := by
  cases i with
  | mk d c =>
    cases c with
    | none => rfl
    | some cs => simp at h

theorem recompute_consistentAt (d : ItemData) (cs : List (String × TestItem)) :
    consistentAtB (recompute_status (.mk d (some cs))) = true := by
  simp [recompute_status, consistentAtB]

theorem childExc_nil (k : String) : childExc k [] = [] := rfl

theorem childExc_cons_nil (k : String) (qs : List (List String)) :
    childExc k ([] :: qs) = childExc k qs := by
  simp [childExc]

theorem childExc_cons (k k' : String) (r : List String) (qs : List (List String)) :
    childExc k ((k' :: r) :: qs) =
      if k' = k then r :: childExc k qs else childExc k qs := by
  by_cases h : k' = k <;> simp [childExc, h]

theorem childExc_subset {qs qs' : List (List String)} (h : qs ⊆ qs') (k : String) :
    childExc k qs ⊆ childExc k qs' := by
  intro r hr
  simp only [childExc, List.mem_filterMap] at hr ⊢
  obtain ⟨q, hq, hqr⟩ := hr
  exact ⟨q, h hq, hqr⟩

theorem anyNonempty_mono {qs qs' : List (List String)} (h : qs ⊆ qs')
    (ha : anyNonempty qs = true) : anyNonempty qs' = true := by
  simp only [anyNonempty, List.any_eq_true] at ha ⊢
  obtain ⟨q, hq, hne⟩ := ha
  exact ⟨q, h hq, hne⟩

theorem exceptAll_iff : ∀ (cs : List (String × TestItem)) (qs : List (List String)),
    consistentExceptAll cs qs = true ↔
      ∀ (k : String) (c : TestItem), (k, c) ∈ cs → consistentExceptB c (childExc k qs) = true
  | [], qs => by simp [consistentExceptAll]
  | (k0, c0) :: rest, qs => by
    rw [consistentExceptAll, Bool.and_eq_true_iff]
    constructor
    · intro ⟨h1, h2⟩ k c hmem
      rcases List.mem_cons.mp hmem with he | he
      · cases he; exact h1
      · exact (exceptAll_iff rest qs).mp h2 k c he
    · intro h
      exact ⟨h k0 c0 (List.mem_cons_self _ _),
        (exceptAll_iff rest qs).mpr (fun k c hmem => h k c (List.mem_cons_of_mem _ hmem))⟩

mutual
theorem exceptB_mono : ∀ (t : TestItem) (qs qs' : List (List String)), qs ⊆ qs' →
    consistentExceptB t qs = true → consistentExceptB t qs' = true
  | .mk _ none, _, _, _, _ => rfl
  | .mk d (some cs), qs, qs', hsub, h => by
    have h2 := Bool.and_eq_true_iff.mp h
    rw [consistentExceptB, Bool.and_eq_true_iff]
    refine ⟨?_, exceptAll_mono cs qs qs' hsub h2.2⟩
    rcases Bool.or_eq_true_iff.mp h2.1 with hat | hne
    · exact Bool.or_eq_true_iff.mpr (Or.inl hat)
    · exact Bool.or_eq_true_iff.mpr (Or.inr (anyNonempty_mono hsub hne))

theorem exceptAll_mono : ∀ (cs : List (String × TestItem)) (qs qs' : List (List String)),
    qs ⊆ qs' → consistentExceptAll cs qs = true → consistentExceptAll cs qs' = true
  | [], _, _, _, _ => rfl
  | (k, c) :: rest, qs, qs', hsub, h => by
    have h2 := Bool.and_eq_true_iff.mp h
    rw [consistentExceptAll, Bool.and_eq_true_iff]
    exact ⟨exceptB_mono c _ _ (childExc_subset hsub k) h2.1,
      exceptAll_mono rest qs qs' hsub h2.2⟩
end

mutual
theorem exceptB_nilExc : ∀ (t : TestItem), consistentExceptB t [] = consistentB t
  | .mk _ none => rfl
  | .mk d (some cs) => by
    rw [consistentExceptB, consistentB_internal, exceptAll_nilExc cs]
    simp [anyNonempty]

theorem exceptAll_nilExc : ∀ (cs : List (String × TestItem)),
    consistentExceptAll cs [] = consistentAllB cs
  | [] => rfl
  | (k, c) :: rest => by
    rw [consistentExceptAll, childExc_nil, exceptB_nilExc c, exceptAll_nilExc rest]
    rfl
end

theorem exceptB_of_consistent {t : TestItem} (h : consistentB t = true)
    (qs : List (List String)) : consistentExceptB t qs = true :=
  exceptB_mono t [] qs (List.nil_subset qs) (by rw [exceptB_nilExc]; exact h)

mutual
theorem consistentB_ups_all : ∀ (t : TestItem), consistentB (update_parent_statuses t) = true
  | .mk d none => rfl
  | .mk d (some cs) => by
    show consistentB (recompute_status (.mk d (some (upsAll cs)))) = true
    rw [show recompute_status (.mk d (some (upsAll cs)))
        = .mk { d with last_status := childStatusFold (upsAll cs),
                       run_status := childRunFold (upsAll cs) } (some (upsAll cs)) from rfl]
    rw [consistentB_internal, Bool.and_eq_true_iff]
    constructor
    · exact recompute_consistentAt d (upsAll cs)
    · exact consistentAllB_ups_all cs

theorem consistentAllB_ups_all : ∀ (cs : List (String × TestItem)),
    consistentAllB (upsAll cs) = true
  | [] => rfl
  | (k, c) :: rest => by
    show (consistentB (update_parent_statuses c) && consistentAllB (upsAll rest)) = true
    rw [consistentB_ups_all c, consistentAllB_ups_all rest]
    rfl
end

theorem exceptAll_dropNil : ∀ (cs : List (String × TestItem)) (qs : List (List String)),
    consistentExceptAll cs ([] :: qs) = consistentExceptAll cs qs
  | [], _ => rfl
  | (k, c) :: rest, qs => by
    rw [consistentExceptAll, consistentExceptAll, childExc_cons_nil,
        exceptAll_dropNil rest qs]

theorem exceptB_dropNil (t : TestItem) (qs : List (List String)) :
    consistentExceptB t ([] :: qs) = consistentExceptB t qs := by
  cases t with
  | mk d c =>
    cases c with
    | none => rfl
    | some cs =>
      rw [consistentExceptB, consistentExceptB, exceptAll_dropNil cs qs]
      simp [anyNonempty]

/-- Core repair lemma: if the tree satisfies the invariant except possibly at
strict ancestors of `q` (and of the other exception paths), then a successful
`upsGo` along `q` discharges the `q` exception: it recomputes exactly those
ancestors bottom-up. -/
theorem exceptB_upsGo : ∀ (q : List String) (t t' : TestItem) (qs : List (List String)),
    consistentExceptB t (q :: qs) = true → upsGo t q = some t' →
    consistentExceptB t' qs = true
  | [], t, t', qs, h, hu => by
    cases hu
    rw [← exceptB_dropNil]
    exact h
  | a :: qr, .mk d none, t', qs, h, hu => by simp [upsGo] at hu
  | a :: qr, .mk d (some cs), t', qs, h, hu => by
    simp only [upsGo, TestItem.children_mk] at hu
    cases hc : lookupA cs a with
    | none => rw [hc] at hu; simp at hu
    | some c =>
      rw [hc] at hu
      simp only [] at hu
      cases hup : upsGo c qr with
      | none => rw [hup] at hu; simp at hu
      | some c' =>
        rw [hup] at hu
        simp only [Option.some.injEq] at hu
        subst hu
        simp only [TestItem.data_mk]
        have hAll : consistentExceptAll cs ((a :: qr) :: qs) = true := by
          rw [consistentExceptB] at h
          exact (Bool.and_eq_true_iff.mp h).2
        rw [show recompute_status (.mk d (some (insertA cs a c')))
            = .mk { d with last_status := childStatusFold (insertA cs a c'),
                           run_status := childRunFold (insertA cs a c') }
                (some (insertA cs a c')) from rfl]
        rw [consistentExceptB, Bool.and_eq_true_iff]
        constructor
        · refine Bool.or_eq_true_iff.mpr (Or.inl ?_)
          simp [consistentAtB]
        · rw [exceptAll_iff]
          intro k c2 hmem
          rcases mem_insertA hmem with he | ⟨hmem2, hk⟩
          · injection he with h1 h2
            subst h1
            subst h2
            have hcx : consistentExceptB c (qr :: childExc k qs) = true := by
              have := (exceptAll_iff cs ((k :: qr) :: qs)).mp hAll k c (lookupA_mem hc)
              rw [childExc_cons] at this
              simpa using this
            exact exceptB_upsGo qr c c2 (childExc k qs) hcx hup
          · have := (exceptAll_iff cs ((a :: qr) :: qs)).mp hAll k c2 hmem2
            rw [childExc_cons, if_neg (Ne.symm hk)] at this
            exact this

/-- Replacing the node at `p` by something consistent can break the invariant
only at strict ancestors of `p`. -/
theorem exceptB_modifyGo : ∀ (p : List String) (t : TestItem) (f : TestItem → TestItem)
    (t' : TestItem) (qs : List (List String)),
    consistentExceptB t qs = true → modifyGo t p f = some t' →
    (∀ i, find_test t p = some i → consistentB (f i) = true) →
    consistentExceptB t' (p :: qs) = true
  | [], t, f, t', qs, h, hm, hf => by
    cases hm
    rw [exceptB_dropNil]
    exact exceptB_of_consistent (hf t rfl) qs
  | a :: pr, .mk d none, f, t', qs, h, hm, hf => by simp [modifyGo] at hm
  | a :: pr, .mk d (some cs), f, t', qs, h, hm, hf => by
    simp only [modifyGo, TestItem.children_mk] at hm
    cases hc : lookupA cs a with
    | none => rw [hc] at hm; simp at hm
    | some c =>
      rw [hc] at hm
      simp only [] at hm
      cases hmc : modifyGo c pr f with
      | none => rw [hmc] at hm; simp at hm
      | some c' =>
        rw [hmc] at hm
        simp only [Option.some.injEq] at hm
        subst hm
        simp only [TestItem.data_mk]
        have hAll : consistentExceptAll cs qs = true := by
          cases hcl : (TestItem.mk d (some cs)).children with
          | none => simp at hcl
          | some _ =>
            rw [consistentExceptB] at h
            exact (Bool.and_eq_true_iff.mp h).2
        rw [consistentExceptB, Bool.and_eq_true_iff]
        constructor
        · refine Bool.or_eq_true_iff.mpr (Or.inr ?_)
          simp [anyNonempty]
        · rw [exceptAll_iff]
          intro k c2 hmem
          rcases mem_insertA hmem with he | ⟨hmem2, hk⟩
          · injection he with h1 h2
            subst h1
            subst h2
            have hcx : consistentExceptB c (childExc k qs) = true :=
              (exceptAll_iff cs qs).mp hAll k c (lookupA_mem hc)
            have hfc : ∀ i, find_test c pr = some i → consistentB (f i) = true := by
              intro i hi
              refine hf i ?_
              show (match lookupA cs k with
                    | none => none
                    | some c3 => find_test c3 pr) = some i
              rw [hc]
              exact hi
            have := exceptB_modifyGo pr c f c2 (childExc k qs) hcx hmc hfc
            rw [childExc_cons, if_pos rfl]
            exact this
          · have := (exceptAll_iff cs qs).mp hAll k c2 hmem2
            rw [childExc_cons, if_neg (Ne.symm hk)]
            exact this

theorem mkAutoInternal_consistent (n full : String) (it : ItemData) :
    consistentB (mkAutoInternal n full it) = true := rfl

/-- A successful `update_test` insertion can break the invariant only at
strict ancestors of the inserted path, provided the inserted item's own
subtree is consistent. -/
theorem exceptB_updateGo : ∀ (p : List String) (node : TestItem) (pref : List String)
    (item : TestItem) (t' : TestItem),
    consistentB node = true → consistentB item = true →
    updateGo node pref p item = some t' →
    consistentExceptB t' [p] = true
  | [], node, _, _, t', hn, _, hu => by
    cases hu
    rw [show ([] : List String) :: ([] : List (List String)) = [([] : List String)] from rfl] at *
    rw [show ([([] : List String)] : List (List String)) = [] :: [] from rfl, exceptB_dropNil,
        exceptB_nilExc]
    exact hn
  | a :: pr, .mk d none, pref, item, t', hn, hi, hu => by simp [updateGo] at hu
  | a :: pr, .mk d (some cs), pref, item, t', hn, hi, hu => by
    simp only [updateGo, TestItem.children_mk] at hu
    cases hrec : updateGo (match lookupA cs a with
        | some c => c
        | none => if pr = [] then item
                  else mkAutoInternal a (test_path_to_name (pref ++ [a])) item.data)
        (pref ++ [a]) pr item with
    | none => rw [hrec] at hu; simp at hu
    | some c' =>
      rw [hrec] at hu
      simp only [Option.some.injEq] at hu
      subst hu
      simp only [TestItem.data_mk]
      have hcAll : consistentAllB cs = true := by
        rw [consistentB_internal] at hn
        exact (Bool.and_eq_true_iff.mp hn).2
      have hc0 : consistentB (match lookupA cs a with
          | some c => c
          | none => if pr = [] then item
                    else mkAutoInternal a (test_path_to_name (pref ++ [a])) item.data) = true := by
        cases hc : lookupA cs a with
        | some c => exact consistentAllB_mem cs hcAll (lookupA_mem hc)
        | none =>
          by_cases hpr : pr = []
          · simp [hpr, hi]
          · simp [hpr, mkAutoInternal_consistent]
      have ih := exceptB_updateGo pr _ (pref ++ [a]) item c' hc0 hi hrec
      rw [consistentExceptB, Bool.and_eq_true_iff]
      constructor
      · refine Bool.or_eq_true_iff.mpr (Or.inr ?_)
        simp [anyNonempty]
      · rw [exceptAll_iff]
        intro k c2 hmem
        rcases mem_insertA hmem with he | ⟨hmem2, hk⟩
        · injection he with h1 h2
          subst h1
          subst h2
          rw [childExc_cons, if_pos rfl, childExc_nil]
          exact ih
        · rw [childExc_cons, if_neg (Ne.symm hk), childExc_nil, exceptB_nilExc]
          exact consistentAllB_mem cs hcAll hmem2

/-! ## Operation-level consistency lemmas -/

theorem shapeAt_isSome (t : TestItem) (q : List String) :
    (shapeAt t q).isSome = (find_test t q).isSome := by
  unfold shapeAt
  cases find_test t q <;> rfl

theorem ups_except {t : TestItem} {q : List String} {qs : List (List String)}
    (h : consistentExceptB t (q :: qs) = true) (hf : (find_test t q).isSome = true) :
    consistentExceptB (update_parent_status t q) qs = true := by
  have hs : (upsGo t q).isSome = true := by rw [upsGo_isSome]; exact hf
  cases hu : upsGo t q with
  | none => rw [hu] at hs; simp at hs
  | some t' =>
    unfold update_parent_status
    rw [hu]
    exact exceptB_upsGo q t t' qs h hu

theorem ups_preserve {t : TestItem} {qs : List (List String)}
    (h : consistentExceptB t qs = true) (q : List String) :
    consistentExceptB (update_parent_status t q) qs = true := by
  cases hu : upsGo t q with
  | none =>
    unfold update_parent_status
    rw [hu]
    exact h
  | some t' =>
    unfold update_parent_status
    rw [hu]
    refine exceptB_upsGo q t t' qs ?_ hu
    exact exceptB_mono t qs (q :: qs) (fun x hx => List.mem_cons_of_mem _ hx) h

theorem ups_shape (t : TestItem) (q p : List String) :
    shapeAt (update_parent_status t q) p = shapeAt t p := by
  cases hu : upsGo t q with
  | none =>
    unfold update_parent_status
    rw [hu]
    rfl
  | some t' =>
    unfold update_parent_status
    rw [hu]
    exact upsGo_shape q t t' hu p

theorem upsGetD_shape (t : TestItem) (q p : List String) :
    shapeAt ((upsGo t q).getD t) p = shapeAt t p := by
  cases hu : upsGo t q with
  | none => rfl
  | some t' => exact upsGo_shape q t t' hu p

theorem withData_children (i : TestItem) (d : ItemData) :
    (i.withData d).children = i.children := by
  cases i
  rfl

/-- Combined step of the run-started / run-finished loops: mutate the leaf at
`p` in place and recompute its parents. Keeps the tree consistent and does
not change its shape. -/
theorem modifyUps_consistent (g : ItemData → ItemData) {root : TestItem} {p : List String}
    {root' : TestItem} (h : consistentB root = true) (hleaf : shapeAt root p = some false)
    (hs : (modifyGo root p (fun i => i.withData (g i.data))).map
      (fun r => update_parent_status r p) = some root') :
    consistentB root' = true ∧ ∀ q, shapeAt root' q = shapeAt root q := by
  cases hm : modifyGo root p (fun i => i.withData (g i.data)) with
  | none => rw [hm] at hs; simp at hs
  | some r =>
    rw [hm] at hs
    simp only [Option.map_some', Option.some.injEq] at hs
    subst hs
    have hchild : ∀ i : TestItem, ((fun (j : TestItem) => j.withData (g j.data)) i).children
        = i.children :=
      fun i => withData_children i _
    have hcons : ∀ i, find_test root p = some i →
        consistentB ((fun i => i.withData (g i.data)) i) = true := by
      intro i hi
      have : i.children = none := by
        unfold shapeAt at hleaf
        rw [hi] at hleaf
        simp only [Option.map_some', Option.some.injEq] at hleaf
        cases hci : i.children with
        | none => rfl
        | some cs => rw [hci] at hleaf; simp at hleaf
      refine leaf_consistent ?_
      rw [withData_children]
      exact this
    have hex : consistentExceptB r [p] = true :=
      exceptB_modifyGo p root _ r [] (by rw [exceptB_nilExc]; exact h) hm hcons
    have hfr : (find_test r p).isSome = true := by
      obtain ⟨i, _, hi2⟩ := modifyGo_at p root _ r hm
      rw [hi2]
      rfl
    have h1 : consistentExceptB (update_parent_status r p) [] = true :=
      ups_except hex hfr
    constructor
    · rw [← exceptB_nilExc]
      exact h1
    · intro q
      rw [ups_shape r p q, modifyGo_shape p root _ r hm hchild q]

theorem queueAll_consistent : ∀ (paths : List (List String)) (root root' : TestItem),
    consistentB root = true → (∀ p ∈ paths, shapeAt root p = some false) →
    queueAll root paths = some root' →
    consistentB root' = true ∧ ∀ q, shapeAt root' q = shapeAt root q
  | [], root, root', h, _, hq => by
    cases hq
    exact ⟨h, fun _ => rfl⟩
  | p :: rest, root, root', h, hleaf, hq => by
    rw [queueAll] at hq
    cases hstep : queueStep root p with
    | none => rw [hstep] at hq; simp at hq
    | some r =>
      rw [hstep] at hq
      simp only [] at hq
      have hm := modifyUps_consistent notify_run_queued h (hleaf p (List.mem_cons_self _ _))
        (by rw [← hstep]; rfl)
      obtain ⟨hr, hshape⟩ := hm
      have ih := queueAll_consistent rest r root' hr
        (fun p' hp' => by rw [hshape p']; exact hleaf p' (List.mem_cons_of_mem _ hp')) hq
      exact ⟨ih.1, fun q => by rw [ih.2 q, hshape q]⟩

theorem stopAll_consistent : ∀ (paths : List (List String)) (root root' : TestItem),
    consistentB root = true → (∀ p ∈ paths, shapeAt root p = some false) →
    stopAll root paths = some root' →
    consistentB root' = true ∧ ∀ q, shapeAt root' q = shapeAt root q
  | [], root, root', h, _, hq => by
    cases hq
    exact ⟨h, fun _ => rfl⟩
  | p :: rest, root, root', h, hleaf, hq => by
    rw [stopAll] at hq
    cases hstep : stopStep root p with
    | none => rw [hstep] at hq; simp at hq
    | some r =>
      rw [hstep] at hq
      simp only [] at hq
      have hm := modifyUps_consistent notify_run_stopped h (hleaf p (List.mem_cons_self _ _))
        (by rw [← hstep]; rfl)
      obtain ⟨hr, hshape⟩ := hm
      have ih := stopAll_consistent rest r root' hr
        (fun p' hp' => by rw [hshape p']; exact hleaf p' (List.mem_cons_of_mem _ hp')) hq
      exact ⟨ih.1, fun q => by rw [ih.2 q, hshape q]⟩

/-- Like `modifyUps_consistent`, but relative to an arbitrary exception set:
mutating a leaf in place and recomputing its parents never lets staleness
spread beyond the already-excepted ancestors. -/
theorem modifyUps_except (g : ItemData → ItemData) {root : TestItem} {p : List String}
    {root' : TestItem} {qs : List (List String)}
    (h : consistentExceptB root qs = true) (hleaf : shapeAt root p = some false)
    (hs : (modifyGo root p (fun i => i.withData (g i.data))).map
      (fun r => update_parent_status r p) = some root') :
    consistentExceptB root' qs = true ∧ ∀ q, shapeAt root' q = shapeAt root q := by
  cases hm : modifyGo root p (fun i => i.withData (g i.data)) with
  | none => rw [hm] at hs; simp at hs
  | some r =>
    rw [hm] at hs
    simp only [Option.map_some', Option.some.injEq] at hs
    subst hs
    have hchild : ∀ i : TestItem, ((fun (j : TestItem) => j.withData (g j.data)) i).children
        = i.children :=
      fun i => withData_children i _
    have hcons : ∀ i, find_test root p = some i →
        consistentB ((fun i => i.withData (g i.data)) i) = true := by
      intro i hi
      have hchn : i.children = none := by
        unfold shapeAt at hleaf
        rw [hi] at hleaf
        simp only [Option.map_some', Option.some.injEq] at hleaf
        cases hci : i.children with
        | none => rfl
        | some cs => rw [hci] at hleaf; simp at hleaf
      refine leaf_consistent ?_
      rw [withData_children]
      exact hchn
    have hex : consistentExceptB r (p :: qs) = true :=
      exceptB_modifyGo p root _ r qs h hm hcons
    have hfr : (find_test r p).isSome = true := by
      obtain ⟨i, _, hi2⟩ := modifyGo_at p root _ r hm
      rw [hi2]
      rfl
    exact ⟨ups_except hex hfr,
      fun q => by rw [ups_shape r p q, modifyGo_shape p root _ r hm hchild q]⟩

/-- The `notify_run_finished` loop started from a tree that is consistent
except at the given exception paths' ancestors stays consistent except there,
without changing the tree's shape. -/
theorem stopAll_except : ∀ (paths : List (List String)) (root root' : TestItem)
    (qs : List (List String)),
    consistentExceptB root qs = true → (∀ p ∈ paths, shapeAt root p = some false) →
    stopAll root paths = some root' →
    consistentExceptB root' qs = true ∧ ∀ q, shapeAt root' q = shapeAt root q
  | [], root, root', _, h, _, hq => by
    cases hq
    exact ⟨h, fun _ => rfl⟩
  | p :: rest, root, root', qs, h, hleaf, hq => by
    rw [stopAll] at hq
    cases hstep : stopStep root p with
    | none => rw [hstep] at hq; simp at hq
    | some r =>
      rw [hstep] at hq
      simp only [] at hq
      have hm := modifyUps_except notify_run_stopped h (hleaf p (List.mem_cons_self _ _))
        (by rw [← hstep]; rfl)
      obtain ⟨hr, hshape⟩ := hm
      have ih := stopAll_except rest r root' qs hr
        (fun p' hp' => by rw [hshape p']; exact hleaf p' (List.mem_cons_of_mem _ hp')) hq
      exact ⟨ih.1, fun q => by rw [ih.2 q, hshape q]⟩

/-- Run-end repair: when the path whose ancestors are stale is itself among
the run's paths, the `notify_run_finished` loop recomputes those ancestors
(the `update_parent_status` of that path's iteration) and restores full
consistency. -/
theorem stopAll_repair : ∀ (paths : List (List String)) (root root' : TestItem)
    (q : List String),
    consistentExceptB root [q] = true → (∀ p ∈ paths, shapeAt root p = some false) →
    q ∈ paths → stopAll root paths = some root' → consistentB root' = true
  | [], _, _, _, _, _, hmem, _ => by simp at hmem
  | p :: rest, root, root', q, h, hleaf, hmem, hq => by
    rw [stopAll] at hq
    cases hstep : stopStep root p with
    | none => rw [hstep] at hq; simp at hq
    | some r =>
      rw [hstep] at hq
      simp only [] at hq
      rcases List.mem_cons.mp hmem with he | he
      · -- this iteration processes the stale path itself
        subst he
        cases hm : modifyGo root q (fun i => i.withData (notify_run_stopped i.data)) with
        | none =>
          rw [show stopStep root q = none by unfold stopStep; rw [hm]; rfl] at hstep
          simp at hstep
        | some r2 =>
          have hr2 : r = update_parent_status r2 q := by
            have : stopStep root q = some (update_parent_status r2 q) := by
              unfold stopStep
              rw [hm]
              rfl
            rw [this] at hstep
            injection hstep with h2
            exact h2.symm
          have hcons : ∀ i, find_test root q = some i →
              consistentB ((fun i => i.withData (notify_run_stopped i.data)) i) = true := by
            intro i hi
            have hchn : i.children = none := by
              have hl := hleaf q (List.mem_cons_self _ _)
              unfold shapeAt at hl
              rw [hi] at hl
              simp only [Option.map_some', Option.some.injEq] at hl
              cases hci : i.children with
              | none => rfl
              | some cs => rw [hci] at hl; simp at hl
            refine leaf_consistent ?_
            rw [withData_children]
            exact hchn
          have hex : consistentExceptB r2 (q :: [q]) = true :=
            exceptB_modifyGo q root _ r2 [q] h hm hcons
          have hex2 : consistentExceptB r2 (q :: []) = true := by
            refine exceptB_mono r2 (q :: [q]) (q :: []) ?_ hex
            intro x hx
            simp only [List.mem_cons, List.mem_singleton] at hx ⊢
            tauto
          have hfr : (find_test r2 q).isSome = true := by
            obtain ⟨i, _, hi2⟩ := modifyGo_at q root _ r2 hm
            rw [hi2]
            rfl
          have hrcons : consistentB r = true := by
            rw [hr2, ← exceptB_nilExc]
            exact ups_except hex2 hfr
          have hshape : ∀ q2, shapeAt r q2 = shapeAt root q2 := by
            intro q2
            rw [hr2, ups_shape r2 q q2,
              modifyGo_shape q root _ r2 hm (fun i => withData_children i _) q2]
          exact (stopAll_consistent rest r root' hrcons
            (fun p' hp' => by rw [hshape p']; exact hleaf p' (List.mem_cons_of_mem _ hp'))
            hq).1
      · -- the stale path comes later; this iteration keeps the exception
        have hm := modifyUps_except notify_run_stopped h (hleaf p (List.mem_cons_self _ _))
          (by rw [← hstep]; rfl)
        obtain ⟨hr, hshape⟩ := hm
        exact stopAll_repair rest r root' q hr
          (fun p' hp' => by rw [hshape p']; exact hleaf p' (List.mem_cons_of_mem _ hp'))
          he hq

theorem updateGo_find_isSome : ∀ (p : List String) (node : TestItem) (pref : List String)
    (item : TestItem) (t' : TestItem), updateGo node pref p item = some t' →
    (find_test t' p).isSome = true
  | [], node, _, _, t', h => by cases h; rfl
  | a :: pr, .mk d none, pref, item, t', h => by simp [updateGo] at h
  | a :: pr, .mk d (some cs), pref, item, t', h => by
    simp only [updateGo, TestItem.children_mk] at h
    cases hrec : updateGo (match lookupA cs a with
        | some c => c
        | none => if pr = [] then item
                  else mkAutoInternal a (test_path_to_name (pref ++ [a])) item.data)
        (pref ++ [a]) pr item with
    | none => rw [hrec] at h; simp at h
    | some c' =>
      rw [hrec] at h
      simp only [Option.some.injEq] at h
      subst h
      show (match lookupA (insertA cs a c') a with
            | none => none
            | some c2 => find_test c2 pr).isSome = true
      rw [lookupA_insertA_self]
      exact updateGo_find_isSome pr _ (pref ++ [a]) item c' hrec

theorem consistentB_data_invariant (d d' : ItemData)
    (h1 : d'.last_status = d.last_status) (h2 : d'.run_status = d.run_status)
    (c : Option (List (String × TestItem))) :
    consistentB (.mk d' c) = consistentB (.mk d c) := by
  cases c with
  | none => rfl
  | some cs =>
    rw [consistentB_internal, consistentB_internal]
    have : consistentAtB (.mk d' (some cs)) = consistentAtB (.mk d (some cs)) := by
      simp [consistentAtB, h1, h2]
    rw [this]

theorem update_from_discovered_consistent {i : TestItem} (t : DiscoveredTest)
    (h : consistentB i = true) : consistentB (update_from_discovered i t) = true := by
  cases i with
  | mk d c =>
    have he : update_from_discovered (.mk d c) t
        = .mk { d with
                discovery_id := t.discovery_id
                framework_id := t.framework_id
                run_id := t.run_id
                location := some t.location } c := rfl
    have hinv := consistentB_data_invariant d
      { d with
        discovery_id := t.discovery_id
        framework_id := t.framework_id
        run_id := t.run_id
        location := some t.location } rfl rfl c
    rw [he, hinv]
    exact h

theorem from_discovered_consistent (t : DiscoveredTest) :
    consistentB (from_discovered t) = true := rfl

theorem discoverStep_consistent {old acc : TestItem} {t : DiscoveredTest} {acc' : TestItem}
    (hold : consistentB old = true) (hacc : consistentB acc = true)
    (h : discoverStep old acc t = some acc') : consistentB acc' = true := by
  have h2 : (update_test acc t.full_name (discItem old t)).map
      (fun r => update_parent_status r t.full_name) = some acc' := h
  cases hu : update_test acc t.full_name (discItem old t) with
  | none => rw [hu] at h2; simp at h2
  | some r =>
    have hitem : consistentB (discItem old t) = true := by
      unfold discItem
      cases hf : find_test old t.full_name with
      | none => simp [from_discovered_consistent]
      | some i =>
        simp only []
        exact update_from_discovered_consistent t (find_consistent t.full_name old hold hf)
    have hex : consistentExceptB r [t.full_name] = true :=
      exceptB_updateGo t.full_name acc [] _ r hacc hitem hu
    have hfr : (find_test r t.full_name).isSome = true :=
      updateGo_find_isSome t.full_name acc [] _ r hu
    have hacc' : acc' = update_parent_status r t.full_name := by
      rw [hu] at h2
      simp only [Option.map_some', Option.some.injEq] at h2
      exact h2.symm
    subst hacc'
    rw [← exceptB_nilExc]
    exact ups_except hex hfr

theorem discoverAll_consistent : ∀ (tests : List DiscoveredTest) (old acc acc' : TestItem),
    consistentB old = true → consistentB acc = true →
    discoverAll old acc tests = some acc' → consistentB acc' = true
  | [], _, acc, acc', _, hacc, h => by cases h; exact hacc
  | t :: rest, old, acc, acc', hold, hacc, h => by
    rw [discoverAll] at h
    cases hstep : discoverStep old acc t with
    | none => rw [hstep] at h; simp at h
    | some acc2 =>
      rw [hstep] at h
      simp only [] at h
      exact discoverAll_consistent rest old acc2 acc' hold
        (discoverStep_consistent hold hacc hstep) h

/-! ## Claim C1 -/

theorem emptyRoot_consistent : consistentB emptyRoot = true := rfl

/-- C1 (counterexample): a two-level tree satisfying the aggregation
invariant, on which `notify_test_finished` records a `PASSED` leaf; after the
mutation returns, the invariant is FALSE — the parent still aggregates
`NOT_RUN`, because `notify_test_finished` deliberately defers the ancestor
recomputation to the next `notify_test_started` (test_data.py lines 734-739,
754-769). -/
theorem C1_counterexample :
    consistentB (TestItem.mk {} (some [("a", .mk { name := "a", full_name := "a" }
      (some [("b", .mk { name := "b", full_name := "a/b" } none)]))])) = true ∧
    (notify_test_finished
      { root := TestItem.mk {} (some [("a", .mk { name := "a", full_name := "a" }
          (some [("b", .mk { name := "b", full_name := "a/b" } none)]))]) }
      ["a", "b"] TestStatus.PASSED).map (fun s => consistentB s.root) = some false := by
  exact ⟨rfl, rfl⟩

/-- C1 (amended): the aggregation invariant (every internal node's
`last_status`/`run_status` is the priority-maximum of its children's) holds
after `notify_discovered_tests` (from a consistent previous tree), and is
preserved by `notify_run_started` (leaf paths) and by `notify_test_started`
(which also repairs the deferred parents of the previously finished test).
After `notify_test_finished`, however, only the finished test's strict
ancestors may violate the invariant — the repair is deferred to the next
`notify_test_started` or the run end. `notify_run_finished`, started from
the reachable deferred-stale state (invariant holds except at strict
ancestors of the pending `last_test_finished` path), never lets the
staleness spread, and fully restores the invariant whenever the pending
path is among the run's paths (as in `run.py`, which passes the same
`test_paths` to both run-start and run-finish) or there is no pending
path; if the pending path is outside the run's paths its ancestors may
simply stay stale. -/
theorem C1_amended :
    (∀ (st : DataState) (tests : List DiscoveredTest) (time : Nat) (st' : DataState),
       consistentB st.root = true →
       notify_discovered_tests st tests time = some st' →
       consistentB st'.root = true) ∧
    (∀ (st : DataState) (paths : List (List String)) (st' : DataState),
       consistentB st.root = true →
       (∀ p ∈ paths, shapeAt st.root p = some false) →
       notify_run_started st paths = some st' →
       consistentB st'.root = true) ∧
    (∀ (st : DataState) (paths : List (List String)) (st' : DataState),
       consistentExceptB st.root (pendingExc st) = true →
       (∀ p ∈ paths, shapeAt st.root p = some false) →
       notify_run_finished st paths = some st' →
       consistentExceptB st'.root (pendingExc st) = true ∧
       (∀ q, st.last_test_finished = some q → q ∈ paths → consistentB st'.root = true) ∧
       (st.last_test_finished = none → consistentB st'.root = true)) ∧
    (∀ (st : DataState) (p : List String) (time : Nat) (st' : DataState),
       consistentExceptB st.root (pendingExc st) = true →
       shapeAt st.root p = some false →
       (∀ q, st.last_test_finished = some q → (find_test st.root q).isSome = true) →
       notify_test_started st p time = some st' →
       consistentB st'.root = true ∧ st'.last_test_finished = none) ∧
    (∀ (st : DataState) (p : List String) (status : TestStatus) (st' : DataState)
       (qs : List (List String)),
       consistentExceptB st.root qs = true →
       shapeAt st.root p = some false →
       notify_test_finished st p status = some st' →
       consistentExceptB st'.root (p :: qs) = true ∧
       st'.last_test_finished = some p) := by
  have leaf_f_consistent : ∀ (g : ItemData → ItemData) (root : TestItem) (p : List String),
      shapeAt root p = some false →
      ∀ i, find_test root p = some i →
        consistentB ((fun (j : TestItem) => j.withData (g j.data)) i) = true := by
    intro g root p hleaf i hi
    have hchn : i.children = none := by
      unfold shapeAt at hleaf
      rw [hi] at hleaf
      simp only [Option.map_some', Option.some.injEq] at hleaf
      cases hci : i.children with
      | none => rfl
      | some cs => rw [hci] at hleaf; simp at hleaf
    refine leaf_consistent ?_
    rw [withData_children]
    exact hchn
  refine ⟨?_, ?_, ?_, ?_, ?_⟩
  · -- notify_discovered_tests
    intro st tests time st' h hs
    have h2 : (discoverAll st.root emptyRoot tests).map
        (fun r => { st with root := r, last_discovery := some time }) = some st' := hs
    cases hd : discoverAll st.root emptyRoot tests with
    | none => rw [hd] at h2; simp at h2
    | some r =>
      rw [hd] at h2
      simp only [Option.map_some', Option.some.injEq] at h2
      subst h2
      exact discoverAll_consistent tests st.root emptyRoot r h emptyRoot_consistent hd
  · -- notify_run_started
    intro st paths st' h hleaf hs
    have h2 : (queueAll st.root paths).map (fun r => { st with root := r, running := true })
        = some st' := hs
    cases hq : queueAll st.root paths with
    | none => rw [hq] at h2; simp at h2
    | some r =>
      rw [hq] at h2
      simp only [Option.map_some', Option.some.injEq] at h2
      subst h2
      exact (queueAll_consistent paths st.root r h hleaf hq).1
  · -- notify_run_finished
    intro st paths st' h hleaf hs
    have h2 : (stopAll st.root paths).map (fun r => { st with root := r, running := false })
        = some st' := hs
    cases hq : stopAll st.root paths with
    | none => rw [hq] at h2; simp at h2
    | some r =>
      rw [hq] at h2
      simp only [Option.map_some', Option.some.injEq] at h2
      subst h2
      refine ⟨(stopAll_except paths st.root r (pendingExc st) h hleaf hq).1, ?_, ?_⟩
      · intro q hltf hqmem
        show consistentB r = true
        refine stopAll_repair paths st.root r q ?_ hleaf hqmem hq
        have hpe : pendingExc st = [q] := by
          rw [pendingExc, hltf]
        rw [hpe] at h
        exact h
      · intro hltf
        show consistentB r = true
        have h3 := (stopAll_except paths st.root r (pendingExc st) h hleaf hq).1
        have hpe : pendingExc st = [] := by
          rw [pendingExc, hltf]
        rw [hpe] at h3
        rw [← exceptB_nilExc]
        exact h3
  · -- notify_test_started
    intro st p time st' h hleaf hpend hs
    have h2 : (modifyGo st.root p
        (fun i => i.withData (update_from_started time i.data))).map
        (fun r =>
          let r1 := match st.last_test_finished with
            | some q => update_parent_status r q
            | none => r
          { st with root := update_parent_status r1 p, last_test_finished := none })
        = some st' := hs
    cases hm : modifyGo st.root p (fun i => i.withData (update_from_started time i.data)) with
    | none => rw [hm] at h2; simp at h2
    | some r =>
      rw [hm] at h2
      simp only [Option.map_some', Option.some.injEq] at h2
      subst h2
      refine ⟨?_, rfl⟩
      have hfrp : (find_test r p).isSome = true := by
        obtain ⟨i, _, hi2⟩ := modifyGo_at p st.root _ r hm
        rw [hi2]
        rfl
      have hex : consistentExceptB r (p :: pendingExc st) = true :=
        exceptB_modifyGo p st.root _ r (pendingExc st) h hm
          (leaf_f_consistent (update_from_started time) st.root p hleaf)
      cases hltf : st.last_test_finished with
      | none =>
        have hex1 : consistentExceptB r [p] = true := by
          rw [pendingExc, hltf] at hex
          exact hex
        show consistentB (update_parent_status r p) = true
        rw [← exceptB_nilExc]
        exact ups_except hex1 hfrp
      | some q =>
        have hex1 : consistentExceptB r (p :: [q]) = true := by
          rw [pendingExc, hltf] at hex
          exact hex
        have hex2 : consistentExceptB r (q :: [p]) = true := by
          refine exceptB_mono r (p :: [q]) (q :: [p]) ?_ hex1
          intro x hx
          simp only [List.mem_cons, List.mem_singleton] at hx ⊢
          tauto
        have hfrq : (find_test r q).isSome = true := by
          have hsd : shapeAt r q = shapeAt st.root q :=
            modifyGo_shape p st.root _ r hm (fun i => withData_children i _) q
          have := hpend q hltf
          rw [← shapeAt_isSome] at this ⊢
          rw [hsd]
          exact this
        have hexq : consistentExceptB (update_parent_status r q) [p] = true :=
          ups_except hex2 hfrq
        have hfrp2 : (find_test (update_parent_status r q) p).isSome = true := by
          rw [← shapeAt_isSome, ups_shape, shapeAt_isSome]
          exact hfrp
        show consistentB (update_parent_status (update_parent_status r q) p) = true
        rw [← exceptB_nilExc]
        exact ups_except hexq hfrp2
  · -- notify_test_finished
    intro st p status st' qs h hleaf hs
    have h2 : (modifyGo st.root p
        (fun i => i.withData (update_from_finished status i.data))).map
        (fun r => { st with root := r, last_test_finished := some p }) = some st' := hs
    cases hm : modifyGo st.root p (fun i => i.withData (update_from_finished status i.data)) with
    | none => rw [hm] at h2; simp at h2
    | some r =>
      rw [hm] at h2
      simp only [Option.map_some', Option.some.injEq] at h2
      subst h2
      exact ⟨exceptB_modifyGo p st.root _ r qs h hm
        (leaf_f_consistent (update_from_finished status) st.root p hleaf), rfl⟩

/-- C1 (witness): the amended theorem applied to a concrete two-level tree
for each of the five mutations. -/
theorem C1_amended_witness :
    (consistentB (TestItem.mk {} (some [("a", .mk { name := "a", full_name := "a" }
        (some [("b", .mk { name := "b", full_name := "a/b" } none)]))])) = true ∧
     shapeAt (TestItem.mk {} (some [("a", .mk { name := "a", full_name := "a" }
        (some [("b", .mk { name := "b", full_name := "a/b" } none)]))])) ["a", "b"]
       = some false) ∧
    ((notify_discovered_tests
        { root := TestItem.mk {} (some [("a", .mk { name := "a", full_name := "a" }
            (some [("b", .mk { name := "b", full_name := "a/b" } none)]))]) }
        [{ full_name := ["a", "c"], discovery_id := 7, framework_id := "fw",
           run_id := "rid", location := {} }] 0).map
      (fun s => consistentB s.root) = some true) ∧
    ((notify_run_started
        { root := TestItem.mk {} (some [("a", .mk { name := "a", full_name := "a" }
            (some [("b", .mk { name := "b", full_name := "a/b" } none)]))]) }
        [["a", "b"]]).map
      (fun s => consistentB s.root) = some true) ∧
    (consistentExceptB (TestItem.mk {} (some [("a", .mk { name := "a", full_name := "a" }
        (some [("b", .mk { name := "b", full_name := "a/b", last_status := TestStatus.PASSED } none)]))])) [["a", "b"]] = true ∧
     (notify_run_finished
        (⟨TestItem.mk {} (some [("a", .mk { name := "a", full_name := "a" }
            (some [("b", .mk { name := "b", full_name := "a/b", last_status := TestStatus.PASSED } none)]))]),
          true, none, some ["a", "b"]⟩ : DataState)
        [["a", "b"]]).map
      (fun s => consistentB s.root) = some true) ∧
    ((notify_test_started
        { root := TestItem.mk {} (some [("a", .mk { name := "a", full_name := "a" }
            (some [("b", .mk { name := "b", full_name := "a/b" } none)]))]),
          last_test_finished := some ["a", "b"] }
        ["a", "b"] 3).map
      (fun s => (consistentB s.root, s.last_test_finished)) = some (true, none)) ∧
    ((notify_test_finished
        { root := TestItem.mk {} (some [("a", .mk { name := "a", full_name := "a" }
            (some [("b", .mk { name := "b", full_name := "a/b" } none)]))]) }
        ["a", "b"] TestStatus.FAILED).map
      (fun s => (consistentExceptB s.root [["a", "b"]], s.last_test_finished))
      = some (true, some ["a", "b"])) := by
  refine ⟨⟨rfl, rfl⟩, ?_, ?_, ?_, ?_, ?_⟩
  · cases h : notify_discovered_tests
        { root := TestItem.mk {} (some [("a", .mk { name := "a", full_name := "a" }
            (some [("b", .mk { name := "b", full_name := "a/b" } none)]))]) }
        [{ full_name := ["a", "c"], discovery_id := 7, framework_id := "fw",
           run_id := "rid", location := {} }] 0 with
    | none =>
      have hs : (notify_discovered_tests
          { root := TestItem.mk {} (some [("a", .mk { name := "a", full_name := "a" }
              (some [("b", .mk { name := "b", full_name := "a/b" } none)]))]) }
          [{ full_name := ["a", "c"], discovery_id := 7, framework_id := "fw",
             run_id := "rid", location := {} }] 0).isSome = true := rfl
      rw [h] at hs
      simp at hs
    | some s =>
      simp only [Option.map_some']
      rw [C1_amended.1 _ _ _ s (by rfl) h]
  · cases h : notify_run_started
        { root := TestItem.mk {} (some [("a", .mk { name := "a", full_name := "a" }
            (some [("b", .mk { name := "b", full_name := "a/b" } none)]))]) }
        [["a", "b"]] with
    | none =>
      have hs : (notify_run_started
          { root := TestItem.mk {} (some [("a", .mk { name := "a", full_name := "a" }
              (some [("b", .mk { name := "b", full_name := "a/b" } none)]))]) }
          [["a", "b"]]).isSome = true := rfl
      rw [h] at hs
      simp at hs
    | some s =>
      simp only [Option.map_some']
      rw [C1_amended.2.1 _ _ s (by rfl)
        (by
          intro p hp
          simp only [List.mem_singleton] at hp
          subst hp
          rfl) h]
  · refine ⟨rfl, ?_⟩
    cases h : notify_run_finished
        (⟨TestItem.mk {} (some [("a", .mk { name := "a", full_name := "a" }
            (some [("b", .mk { name := "b", full_name := "a/b", last_status := TestStatus.PASSED } none)]))]),
          true, none, some ["a", "b"]⟩ : DataState)
        [["a", "b"]] with
    | none =>
      have hs : (notify_run_finished
          (⟨TestItem.mk {} (some [("a", .mk { name := "a", full_name := "a" }
              (some [("b", .mk { name := "b", full_name := "a/b", last_status := TestStatus.PASSED } none)]))]),
            true, none, some ["a", "b"]⟩ : DataState)
          [["a", "b"]]).isSome = true := rfl
      rw [h] at hs
      simp at hs
    | some s =>
      simp only [Option.map_some']
      obtain ⟨_, hb, _⟩ := C1_amended.2.2.1 _ _ s (by rfl)
        (by
          intro p hp
          simp only [List.mem_singleton] at hp
          subst hp
          rfl) h
      rw [hb ["a", "b"] rfl (by simp)]
  · cases h : notify_test_started
        { root := TestItem.mk {} (some [("a", .mk { name := "a", full_name := "a" }
            (some [("b", .mk { name := "b", full_name := "a/b" } none)]))]),
          last_test_finished := some ["a", "b"] }
        ["a", "b"] 3 with
    | none =>
      have hs : (notify_test_started
          { root := TestItem.mk {} (some [("a", .mk { name := "a", full_name := "a" }
              (some [("b", .mk { name := "b", full_name := "a/b" } none)]))]),
            last_test_finished := some ["a", "b"] }
          ["a", "b"] 3).isSome = true := rfl
      rw [h] at hs
      simp at hs
    | some s =>
      simp only [Option.map_some']
      obtain ⟨h1, h2⟩ := C1_amended.2.2.2.1 _ _ 3 s (by rfl) (by rfl)
        (by
          intro q hq
          cases hq
          rfl) h
      rw [h1, h2]
  · cases h : notify_test_finished
        { root := TestItem.mk {} (some [("a", .mk { name := "a", full_name := "a" }
            (some [("b", .mk { name := "b", full_name := "a/b" } none)]))]) }
        ["a", "b"] TestStatus.FAILED with
    | none =>
      have hs : (notify_test_finished
          { root := TestItem.mk {} (some [("a", .mk { name := "a", full_name := "a" }
              (some [("b", .mk { name := "b", full_name := "a/b" } none)]))]) }
          ["a", "b"] TestStatus.FAILED).isSome = true := rfl
      rw [h] at hs
      simp at hs
    | some s =>
      simp only [Option.map_some']
      obtain ⟨h1, h2⟩ := C1_amended.2.2.2.2 _ _ TestStatus.FAILED s [] (by rfl) (by rfl) h
      rw [h1, h2]

/-! ## Claim C5 -/

theorem mapLeavesAll_lookup (f : ItemData → ItemData) :
    ∀ (cs : List (String × TestItem)) (k : String),
    lookupA (mapLeavesAll f cs) k = (lookupA cs k).map (mapLeaves f)
  | [], _ => rfl
  | (a, c) :: rest, k => by
    rw [mapLeavesAll]
    by_cases ha : a = k
    · simp [lookupA, ha]
    · simp [lookupA, ha, mapLeavesAll_lookup f rest k]

theorem mapLeaves_find (f : ItemData → ItemData) :
    ∀ (p : List String) (t : TestItem),
    find_test (mapLeaves f t) p = (find_test t p).map (mapLeaves f)
  | [], t => rfl
  | a :: pr, .mk d none => rfl
  | a :: pr, .mk d (some cs) => by
    show (match lookupA (mapLeavesAll f cs) a with
          | none => none
          | some c => find_test c pr)
        = (match lookupA cs a with
          | none => none
          | some c => find_test c pr).map (mapLeaves f)
    rw [mapLeavesAll_lookup f cs a]
    cases lookupA cs a with
    | none => rfl
    | some c =>
      simp only [Option.map_some']
      exact mapLeaves_find f pr c

theorem upsAll_lookup : ∀ (cs : List (String × TestItem)) (k : String),
    lookupA (upsAll cs) k = (lookupA cs k).map update_parent_statuses
  | [], _ => rfl
  | (a, c) :: rest, k => by
    rw [upsAll]
    by_cases ha : a = k
    · simp [lookupA, ha]
    · simp [lookupA, ha, upsAll_lookup rest k]

theorem ups_all_find_leaf : ∀ (p : List String) (t : TestItem) (d : ItemData),
    find_test t p = some (.mk d none) →
    find_test (update_parent_statuses t) p = some (.mk d none)
  | [], t, d, h => by
    cases h
    rfl
  | a :: pr, .mk d0 none, d, h => by simp [find_test] at h
  | a :: pr, .mk d0 (some cs), d, h => by
    have h2 : (match lookupA cs a with
        | none => none
        | some c => find_test c pr) = some (TestItem.mk d none) := h
    cases hc : lookupA cs a with
    | none => rw [hc] at h2; simp at h2
    | some c =>
      rw [hc] at h2
      show (match lookupA (upsAll cs) a with
            | none => none
            | some c2 => find_test c2 pr) = some (TestItem.mk d none)
      rw [upsAll_lookup cs a, hc]
      simp only [Option.map_some']
      exact ups_all_find_leaf pr c d h2

/-- C5: if the persisted metadata says `running` when the coordinator is
constructed, the healing step clears the flag, transitions every leaf with
`run_status = RUNNING` to `last_status = CRASHED` and every `QUEUED` leaf to
`STOPPED` while leaving every other leaf's `last_status` (and `last_run`)
unchanged, sets every leaf's `run_status` to `NOT_RUNNING`, and recomputes
every ancestor aggregate (the healed tree satisfies the aggregation
invariant) before the state is committed. -/
theorem C5_heal_on_load (st : DataState) (h : st.running = true) :
    (healOnLoad st).running = false ∧
    consistentB (healOnLoad st).root = true ∧
    (∀ (p : List String) (d : ItemData), find_test st.root p = some (.mk d none) →
      find_test (healOnLoad st).root p = some (.mk (notify_run_stopped d) none)) ∧
    (∀ d : ItemData,
      (notify_run_stopped d).run_status = RunStatus.NOT_RUNNING ∧
      (notify_run_stopped d).last_status =
        (if d.run_status = RunStatus.RUNNING then TestStatus.CRASHED
         else if d.run_status = RunStatus.QUEUED then TestStatus.STOPPED
         else d.last_status) ∧
      (notify_run_stopped d).last_run = d.last_run) := by
  have hh : healOnLoad st =
      { st with running := false,
                root := update_parent_statuses (mapLeaves notify_run_stopped st.root) } := by
    unfold healOnLoad
    rw [h]
    simp
  refine ⟨by rw [hh], by rw [hh]; exact consistentB_ups_all _, ?_, ?_⟩
  · intro p d hfind
    rw [hh]
    show find_test (update_parent_statuses (mapLeaves notify_run_stopped st.root)) p
        = some (.mk (notify_run_stopped d) none)
    refine ups_all_find_leaf p _ _ ?_
    rw [mapLeaves_find notify_run_stopped p st.root, hfind]
    rfl
  · intro d
    unfold notify_run_stopped
    by_cases h1 : d.run_status = RunStatus.RUNNING
    · simp [h1]
    · by_cases h2 : d.run_status = RunStatus.QUEUED
      · simp [h1, h2]
      · simp [h1, h2]

/-- C5 (witness): the healing theorem applied to a concrete interrupted state
with one `RUNNING` leaf, which comes back `CRASHED` and `NOT_RUNNING` with the
flag cleared and the parents consistent. -/
theorem C5_heal_witness :
    ((⟨TestItem.mk {} (some [("a", .mk { name := "a", full_name := "a" }
        (some [("b", .mk { name := "b", full_name := "a/b", run_status := RunStatus.RUNNING } none)]))]),
      true, none, none⟩ : DataState).running = true) ∧
    (healOnLoad (⟨TestItem.mk {} (some [("a", .mk { name := "a", full_name := "a" }
        (some [("b", .mk { name := "b", full_name := "a/b", run_status := RunStatus.RUNNING } none)]))]),
      true, none, none⟩ : DataState)).running = false ∧
    consistentB (healOnLoad (⟨TestItem.mk {} (some [("a", .mk { name := "a", full_name := "a" }
        (some [("b", .mk { name := "b", full_name := "a/b", run_status := RunStatus.RUNNING } none)]))]),
      true, none, none⟩ : DataState)).root = true ∧
    find_test (healOnLoad (⟨TestItem.mk {} (some [("a", .mk { name := "a", full_name := "a" }
        (some [("b", .mk { name := "b", full_name := "a/b", run_status := RunStatus.RUNNING } none)]))]),
      true, none, none⟩ : DataState)).root ["a", "b"]
      = some (.mk { name := "b", full_name := "a/b", last_status := TestStatus.CRASHED, run_status := RunStatus.NOT_RUNNING } none) := by
  have happ := C5_heal_on_load
    (⟨TestItem.mk {} (some [("a", .mk { name := "a", full_name := "a" }
        (some [("b", .mk { name := "b", full_name := "a/b", run_status := RunStatus.RUNNING } none)]))]),
      true, none, none⟩ : DataState) rfl
  refine ⟨rfl, happ.1, happ.2.1, ?_⟩
  exact happ.2.2.1 ["a", "b"]
    { name := "b", full_name := "a/b", run_status := RunStatus.RUNNING } rfl

/-! ## Claim C10 -/

theorem updateGo_top : ∀ (p : List String) (node : TestItem) (pref : List String)
    (item : TestItem) (t' : TestItem), p ≠ [] → updateGo node pref p item = some t' →
    t'.data = node.data ∧ ∃ cs2, t'.children = some cs2
  | [], _, _, _, _, hne, _ => absurd rfl hne
  | a :: pr, .mk d none, pref, item, t', _, h => by simp [updateGo] at h
  | a :: pr, .mk d (some cs), pref, item, t', _, h => by
    simp only [updateGo, TestItem.children_mk] at h
    cases hrec : updateGo (match lookupA cs a with
        | some c => c
        | none => if pr = [] then item
                  else mkAutoInternal a (test_path_to_name (pref ++ [a])) item.data)
        (pref ++ [a]) pr item with
    | none => rw [hrec] at h; simp at h
    | some c' =>
      rw [hrec] at h
      simp only [Option.some.injEq] at h
      subst h
      exact ⟨rfl, insertA cs a c', rfl⟩

/-- Core insertion lemma for `update_test`: when the path is non-empty, every
existing node at a prefix of the path is internal, and no node occupies the
path yet, the insertion succeeds, the inserted item is found at the path
afterwards, and every previously-absent proper prefix now holds an internal
node whose `full_name` is the separator-joined prefix. -/
theorem updateGo_insert : ∀ (p : List String) (node : TestItem) (pref : List String)
    (item : TestItem), p ≠ [] →
    (∀ q, q <+: p → ∀ i, find_test node q = some i → i.children.isSome = true) →
    find_test node p = none →
    ∃ t', updateGo node pref p item = some t' ∧
      find_test t' p = some item ∧
      (∀ q, q ≠ [] → ProperPref q p → find_test node q = none →
        ∃ nj, find_test t' q = some nj ∧ nj.children.isSome = true ∧
          nj.data.full_name = test_path_to_name (pref ++ q))
  | [], _, _, _, hne, _, _ => absurd rfl hne
  | [a], node, pref, item, _, hw, habs => by
    obtain ⟨d, cnode⟩ := node
    cases cnode with
    | none =>
      have := hw [] List.nil_prefix (.mk d none) rfl
      simp at this
    | some cs =>
      have hlk : lookupA cs a = none := by
        cases hc : lookupA cs a with
        | none => rfl
        | some c =>
          have h2 : (match lookupA cs a with
              | none => none
              | some c2 => find_test c2 []) = (none : Option TestItem) := habs
          rw [hc] at h2
          simp [find_test] at h2
      refine ⟨.mk d (some (insertA cs a item)), ?_, ?_, ?_⟩
      · show (match updateGo (match lookupA cs a with
            | some c => c
            | none => if ([] : List String) = [] then item
                      else mkAutoInternal a (test_path_to_name (pref ++ [a])) item.data)
            (pref ++ [a]) [] item with
          | none => none
          | some child' => some (TestItem.mk d (some (insertA cs a child')))) =
          some (TestItem.mk d (some (insertA cs a item)))
        rw [hlk]
        rfl
      · show (match lookupA (insertA cs a item) a with
            | none => none
            | some c2 => find_test c2 []) = some item
        rw [lookupA_insertA_self]
        rfl
      · intro q hqne hqp _
        exfalso
        obtain ⟨⟨r, hr⟩, hne2⟩ := hqp
        cases q with
        | nil => exact hqne rfl
        | cons x xs =>
          have hr2 : x :: (xs ++ r) = [a] := hr
          injection hr2 with h1 h2
          subst h1
          obtain ⟨hxs, _⟩ := List.append_eq_nil.mp h2
          subst hxs
          exact hne2 rfl
  | a :: b :: pr, .mk d cnode, pref, item, _, hw, habs => by
    cases cnode with
    | none =>
      have := hw [] List.nil_prefix (.mk d none) rfl
      simp at this
    | some cs =>
      cases hc : lookupA cs a with
      | some c =>
        have childHw : ∀ q, q <+: (b :: pr) → ∀ i, find_test c q = some i →
            i.children.isSome = true := by
          intro q hq i hi
          refine hw (a :: q) (List.cons_prefix_cons.mpr ⟨rfl, hq⟩) i ?_
          show (match lookupA cs a with
              | none => none
              | some c2 => find_test c2 q) = some i
          rw [hc]
          exact hi
        have childAbs : find_test c (b :: pr) = none := by
          have h2 : (match lookupA cs a with
              | none => none
              | some c2 => find_test c2 (b :: pr)) = (none : Option TestItem) := habs
          rw [hc] at h2
          exact h2
        obtain ⟨c', h1, h2, h3⟩ := updateGo_insert (b :: pr) c (pref ++ [a]) item
          (by simp) childHw childAbs
        refine ⟨.mk d (some (insertA cs a c')), ?_, ?_, ?_⟩
        · show (match updateGo (match lookupA cs a with
              | some c2 => c2
              | none => if (b :: pr : List String) = [] then item
                        else mkAutoInternal a (test_path_to_name (pref ++ [a])) item.data)
              (pref ++ [a]) (b :: pr) item with
            | none => none
            | some child' => some (TestItem.mk d (some (insertA cs a child')))) =
            some (TestItem.mk d (some (insertA cs a c')))
          rw [hc, h1]
        · show (match lookupA (insertA cs a c') a with
              | none => none
              | some c2 => find_test c2 (b :: pr)) = some item
          rw [lookupA_insertA_self]
          exact h2
        · intro q hqne hqp hfnone
          obtain ⟨hpre, hneq⟩ := hqp
          cases q with
          | nil => exact absurd rfl hqne
          | cons a' q' =>
            obtain ⟨ha', hq'⟩ := List.cons_prefix_cons.mp hpre
            subst ha'
            cases hq'eq : q' with
            | nil =>
              exfalso
              have h4 : (match lookupA cs a' with
                  | none => none
                  | some c2 => find_test c2 ([] : List String)) = (none : Option TestItem) := by
                rw [← hq'eq]
                exact hfnone
              rw [hc] at h4
              simp [find_test] at h4
            | cons y ys =>
              subst hq'eq
              have hq'pp : ProperPref (y :: ys) (b :: pr) := by
                refine ⟨hq', ?_⟩
                intro hcontra
                exact hneq (by rw [hcontra])
              have hfind' : find_test c (y :: ys) = none := by
                have h4 : (match lookupA cs a' with
                    | none => none
                    | some c2 => find_test c2 (y :: ys)) = (none : Option TestItem) := hfnone
                rw [hc] at h4
                exact h4
              obtain ⟨nj, hn1, hn2, hn3⟩ := h3 (y :: ys) (by simp) hq'pp hfind'
              refine ⟨nj, ?_, hn2, ?_⟩
              · show (match lookupA (insertA cs a' c') a' with
                    | none => none
                    | some c2 => find_test c2 (y :: ys)) = some nj
                rw [lookupA_insertA_self]
                exact hn1
              · rw [hn3, ← List.append_cons]
      | none =>
        have childAbs : find_test (mkAutoInternal a (test_path_to_name (pref ++ [a]))
            item.data) (b :: pr) = none := rfl
        have childHw : ∀ q, q <+: (b :: pr) →
            ∀ i, find_test (mkAutoInternal a (test_path_to_name (pref ++ [a]))
              item.data) q = some i → i.children.isSome = true := by
          intro q _ i hi
          cases q with
          | nil =>
            cases hi
            rfl
          | cons y ys => simp [mkAutoInternal, find_test, lookupA] at hi
        obtain ⟨c', h1, h2, h3⟩ := updateGo_insert (b :: pr)
          (mkAutoInternal a (test_path_to_name (pref ++ [a])) item.data)
          (pref ++ [a]) item (by simp) childHw childAbs
        have htop := updateGo_top (b :: pr) _ (pref ++ [a]) item c' (by simp) h1
        refine ⟨.mk d (some (insertA cs a c')), ?_, ?_, ?_⟩
        · show (match updateGo (match lookupA cs a with
              | some c2 => c2
              | none => if (b :: pr : List String) = [] then item
                        else mkAutoInternal a (test_path_to_name (pref ++ [a])) item.data)
              (pref ++ [a]) (b :: pr) item with
            | none => none
            | some child' => some (TestItem.mk d (some (insertA cs a child')))) =
            some (TestItem.mk d (some (insertA cs a c')))
          rw [hc]
          simp only [if_neg (by simp : ¬(b :: pr : List String) = [])]
          rw [h1]
        · show (match lookupA (insertA cs a c') a with
              | none => none
              | some c2 => find_test c2 (b :: pr)) = some item
          rw [lookupA_insertA_self]
          exact h2
        · intro q hqne hqp hfnone
          obtain ⟨hpre, hneq⟩ := hqp
          cases q with
          | nil => exact absurd rfl hqne
          | cons a' q' =>
            obtain ⟨ha', hq'⟩ := List.cons_prefix_cons.mp hpre
            subst ha'
            cases hq'eq : q' with
            | nil =>
              subst hq'eq
              refine ⟨c', ?_, ?_, ?_⟩
              · show (match lookupA (insertA cs a' c') a' with
                    | none => none
                    | some c2 => find_test c2 ([] : List String)) = some c'
                rw [lookupA_insertA_self]
                rfl
              · obtain ⟨_, cs2, hcs2⟩ := htop
                rw [hcs2]
                rfl
              · obtain ⟨hdata, _⟩ := htop
                rw [hdata]
                rfl
            | cons y ys =>
              subst hq'eq
              have hq'pp : ProperPref (y :: ys) (b :: pr) := by
                refine ⟨hq', ?_⟩
                intro hcontra
                exact hneq (by rw [hcontra])
              obtain ⟨nj, hn1, hn2, hn3⟩ := h3 (y :: ys) (by simp) hq'pp rfl
              refine ⟨nj, ?_, hn2, ?_⟩
              · show (match lookupA (insertA cs a' c') a' with
                    | none => none
                    | some c2 => find_test c2 (y :: ys)) = some nj
                rw [lookupA_insertA_self]
                exact hn1
              · rw [hn3, ← List.append_cons]

/-- C10 (counterexample): inserting at a path that is already occupied keeps
the existing node and silently discards the new item: after
`update_test(["a"], i1)` followed by `update_test(["a"], i2)`, the lookup at
`["a"]` still returns the first item (here observed through `framework_id`),
not the just-"inserted" `i2` the claim promises. -/
theorem C10_counterexample :
    ((update_test emptyRoot ["a"]
        (.mk { name := "a", framework_id := "f1" } none)).bind
      (fun t1 => update_test t1 ["a"]
        (.mk { name := "a", framework_id := "f2" } none))).map
      (fun t2 => (find_test t2 ["a"]).map (fun i => i.data.framework_id))
      = some (some "f1") ∧ ("f1" : String) ≠ "f2" := by
  exact ⟨rfl, by decide⟩

/-- C10 (amended): for a non-empty path `p` that is not yet occupied and whose
existing proper prefixes are all internal nodes, `update_test(p, i)` succeeds,
`find_test(p)` afterwards returns exactly the inserted item, and every
previously-absent proper prefix of `p` now holds an auto-created internal
node (children dict present) whose `full_name` is the separator-joined
prefix. When `p` is already occupied, the existing node is kept and the item
is discarded (see the counterexample); when an existing proper prefix is a
leaf, `update_test` raises (its `assert`). -/
theorem C10_amended (t : TestItem) (p : List String) (item : TestItem)
    (hne : p ≠ [])
    (hw : ∀ q, q <+: p → ∀ i, find_test t q = some i → i.children.isSome = true)
    (habs : find_test t p = none) :
    ∃ t', update_test t p item = some t' ∧
      find_test t' p = some item ∧
      (∀ q, q ≠ [] → ProperPref q p → find_test t q = none →
        ∃ nj, find_test t' q = some nj ∧ nj.children.isSome = true ∧
          nj.data.full_name = test_path_to_name q) := by
  obtain ⟨t', h1, h2, h3⟩ := updateGo_insert p t [] item hne hw habs
  refine ⟨t', h1, h2, ?_⟩
  intro q hqne hqp hfn
  obtain ⟨nj, hn1, hn2, hn3⟩ := h3 q hqne hqp hfn
  refine ⟨nj, hn1, hn2, ?_⟩
  rw [hn3]
  rfl

/-- C10 (witness): the amended theorem applied to the empty root with path
`["a", "b"]`: the leaf lands at `a/b` and the auto-created internal node at
`["a"]` carries `full_name = "a"`. -/
theorem C10_amended_witness :
    ((["a", "b"] : List String) ≠ [] ∧
     find_test emptyRoot ["a", "b"] = none) ∧
    (∃ t', update_test emptyRoot ["a", "b"]
        (.mk { name := "b", full_name := "a/b" } none) = some t' ∧
      find_test t' ["a", "b"] = some (.mk { name := "b", full_name := "a/b" } none) ∧
      (∀ q, q ≠ [] → ProperPref q ["a", "b"] → find_test emptyRoot q = none →
        ∃ nj, find_test t' q = some nj ∧ nj.children.isSome = true ∧
          nj.data.full_name = test_path_to_name q)) := by
  refine ⟨⟨by decide, rfl⟩, ?_⟩
  refine C10_amended emptyRoot ["a", "b"] (.mk { name := "b", full_name := "a/b" } none)
    (by decide) ?_ rfl
  intro q hq i hi
  obtain ⟨r, hr⟩ := hq
  cases q with
  | nil =>
    cases hi
    rfl
  | cons x xs =>
    have hr2 : x :: (xs ++ r) = ["a", "b"] := hr
    injection hr2 with h1 h2
    subst h1
    cases xs with
    | nil => simp [emptyRoot, find_test, lookupA] at hi
    | cons y ys =>
      have h3 : y :: (ys ++ r) = ["b"] := h2
      injection h3 with h4 h5
      subst h4
      obtain ⟨hys, _⟩ := List.append_eq_nil.mp h5
      subst hys
      simp [emptyRoot, find_test, lookupA] at hi

/-! ## Claim C4: frame lemmas for insertion -/

theorem ups_find {p q : List String} (t : TestItem) (h : ¬ ProperPref p q) :
    find_test (update_parent_status t q) p = find_test t p := by
  cases hu : upsGo t q with
  | none =>
    unfold update_parent_status
    rw [hu]
    rfl
  | some t' =>
    unfold update_parent_status
    rw [hu]
    exact upsGo_find q t t' hu p h

/-- Paths found after a successful insertion at `p` either existed before or
are comparable (prefix-wise) with `p`. -/
theorem updateGo_member : ∀ (p : List String) (node : TestItem) (pref : List String)
    (item : TestItem) (t' : TestItem), updateGo node pref p item = some t' →
    ∀ q, (find_test t' q).isSome = true →
      (find_test node q).isSome = true ∨ q <+: p ∨ p <+: q
  | [], node, _, _, t', h, q, hq => by
    cases h
    exact Or.inl hq
  | a :: pr, .mk d none, _, _, t', h, _, _ => by simp [updateGo] at h
  | a :: pr, .mk d (some cs), pref, item, t', h, q, hq => by
    simp only [updateGo, TestItem.children_mk] at h
    cases hrec : updateGo (match lookupA cs a with
        | some c => c
        | none => if pr = [] then item
                  else mkAutoInternal a (test_path_to_name (pref ++ [a])) item.data)
        (pref ++ [a]) pr item with
    | none => rw [hrec] at h; simp at h
    | some c' =>
      rw [hrec] at h
      simp only [Option.some.injEq] at h
      subst h
      cases q with
      | nil => exact Or.inl rfl
      | cons b qr =>
        by_cases hb : b = a
        · subst hb
          have hq2 : (find_test c' qr).isSome = true := by
            have : (match lookupA (insertA cs b c') b with
                | none => none
                | some c2 => find_test c2 qr).isSome = true := hq
            rw [lookupA_insertA_self] at this
            exact this
          have hm := updateGo_member pr _ (pref ++ [b]) item c' hrec qr hq2
          rcases hm with hm | hm | hm
          · cases hc : lookupA cs b with
            | some c =>
              rw [hc] at hm
              refine Or.inl ?_
              show (match lookupA cs b with
                  | none => none
                  | some c2 => find_test c2 qr).isSome = true
              rw [hc]
              exact hm
            | none =>
              rw [hc] at hm
              by_cases hpr : pr = []
              · subst hpr
                exact Or.inr (Or.inr (List.cons_prefix_cons.mpr ⟨rfl, List.nil_prefix⟩))
              · rw [if_neg hpr] at hm
                cases hqr : qr with
                | nil =>
                  exact Or.inr (Or.inl (List.cons_prefix_cons.mpr ⟨rfl, List.nil_prefix⟩))
                | cons y ys =>
                  rw [hqr] at hm
                  simp [mkAutoInternal, find_test, lookupA] at hm
          · exact Or.inr (Or.inl (List.cons_prefix_cons.mpr ⟨rfl, hm⟩))
          · exact Or.inr (Or.inr (List.cons_prefix_cons.mpr ⟨rfl, hm⟩))
        · refine Or.inl ?_
          have : (match lookupA (insertA cs a c') b with
              | none => none
              | some c2 => find_test c2 qr).isSome = true := hq
          rw [lookupA_insertA_ne cs a c' b hb] at this
          exact this

/-- A successful insertion preserves every existing internal node: it stays
present and internal. -/
theorem updateGo_shape_pres : ∀ (p : List String) (node : TestItem) (pref : List String)
    (item : TestItem) (t' : TestItem), updateGo node pref p item = some t' →
    ∀ q, shapeAt node q = some true → shapeAt t' q = some true
  | [], node, _, _, t', h, q, hq => by
    cases h
    exact hq
  | a :: pr, .mk d none, _, _, t', h, _, _ => by simp [updateGo] at h
  | a :: pr, .mk d (some cs), pref, item, t', h, q, hq => by
    simp only [updateGo, TestItem.children_mk] at h
    cases hrec : updateGo (match lookupA cs a with
        | some c => c
        | none => if pr = [] then item
                  else mkAutoInternal a (test_path_to_name (pref ++ [a])) item.data)
        (pref ++ [a]) pr item with
    | none => rw [hrec] at h; simp at h
    | some c' =>
      rw [hrec] at h
      simp only [Option.some.injEq] at h
      subst h
      cases q with
      | nil => rfl
      | cons b qr =>
        by_cases hb : b = a
        · subst hb
          show ((match lookupA (insertA cs b c') b with
              | none => none
              | some c2 => find_test c2 qr).map (fun (i : TestItem) => i.children.isSome))
              = some true
          rw [lookupA_insertA_self]
          cases hc : lookupA cs b with
          | some c =>
            refine updateGo_shape_pres pr _ (pref ++ [b]) item c' hrec qr ?_
            rw [hc]
            have : ((match lookupA cs b with
                | none => none
                | some c2 => find_test c2 qr).map
                  (fun (i : TestItem) => i.children.isSome)) = some true := hq
            rw [hc] at this
            exact this
          | none =>
            exfalso
            have : ((match lookupA cs b with
                | none => none
                | some c2 => find_test c2 qr).map
                  (fun (i : TestItem) => i.children.isSome)) = some true := hq
            rw [hc] at this
            simp at this
        · show ((match lookupA (insertA cs a c') b with
              | none => none
              | some c2 => find_test c2 qr).map (fun (i : TestItem) => i.children.isSome))
              = some true
          rw [lookupA_insertA_ne cs a c' b hb]
          exact hq

/-- A successful insertion at `p` does not disturb any path that is
prefix-incomparable with `p`. -/
theorem updateGo_frame : ∀ (p : List String) (node : TestItem) (pref : List String)
    (item : TestItem) (t' : TestItem), updateGo node pref p item = some t' →
    ∀ q, ¬ q <+: p → ¬ p <+: q → find_test t' q = find_test node q
  | [], node, _, _, t', h, q, _, hq2 => absurd List.nil_prefix hq2
  | a :: pr, .mk d none, _, _, t', h, _, _, _ => by simp [updateGo] at h
  | a :: pr, .mk d (some cs), pref, item, t', h, q, hq1, hq2 => by
    simp only [updateGo, TestItem.children_mk] at h
    cases hrec : updateGo (match lookupA cs a with
        | some c => c
        | none => if pr = [] then item
                  else mkAutoInternal a (test_path_to_name (pref ++ [a])) item.data)
        (pref ++ [a]) pr item with
    | none => rw [hrec] at h; simp at h
    | some c' =>
      rw [hrec] at h
      simp only [Option.some.injEq] at h
      subst h
      cases q with
      | nil => exact absurd List.nil_prefix hq1
      | cons b qr =>
        show (match lookupA (insertA cs a c') b with
            | none => none
            | some c2 => find_test c2 qr)
            = (match lookupA cs b with
            | none => none
            | some c2 => find_test c2 qr)
        by_cases hb : b = a
        · subst hb
          rw [lookupA_insertA_self]
          have hq1' : ¬ qr <+: pr := fun hc => hq1 (List.cons_prefix_cons.mpr ⟨rfl, hc⟩)
          have hq2' : ¬ pr <+: qr := fun hc => hq2 (List.cons_prefix_cons.mpr ⟨rfl, hc⟩)
          cases hc : lookupA cs b with
          | some c =>
            exact updateGo_frame pr c (pref ++ [b]) item c' (by rw [hc] at hrec; exact hrec)
              qr hq1' hq2'
          | none =>
            rw [hc] at hrec
            have hqrne : qr ≠ [] := by
              intro hq
              exact hq1 (by rw [hq]; exact List.cons_prefix_cons.mpr ⟨rfl, List.nil_prefix⟩)
            have hprne : pr ≠ [] := by
              intro hp
              exact hq2 (by rw [hp]; exact List.cons_prefix_cons.mpr ⟨rfl, List.nil_prefix⟩)
            rw [if_neg hprne] at hrec
            have hnone : (find_test c' qr).isSome = true →
                (find_test (mkAutoInternal b (test_path_to_name (pref ++ [b]))
                  item.data) qr).isSome = true ∨ qr <+: pr ∨ pr <+: qr := fun hs =>
              updateGo_member pr _ (pref ++ [b]) item c' hrec qr hs
            cases hfq : find_test c' qr with
            | none => exact hfq
            | some x =>
              exfalso
              rcases hnone (by rw [hfq]; rfl) with hm | hm | hm
              · cases hqr2 : qr with
                | nil => exact hqrne hqr2
                | cons y ys =>
                  rw [hqr2] at hm
                  simp [mkAutoInternal, find_test, lookupA] at hm
              · exact hq1' hm
              · exact hq2' hm
        · rw [lookupA_insertA_ne cs a c' b hb]

/-- Main induction for C4: running the `notify_discovered_tests` loop over a
prefix-free list of non-empty paths, starting from a tree in which none of
the paths exists yet and every existing prefix node is internal, places
exactly `discItem old t` at every discovered path and leaves
prefix-incomparable paths untouched. -/
theorem discoverAll_spec : ∀ (tests : List DiscoveredTest) (old acc : TestItem),
    (∀ t ∈ tests, t.full_name ≠ []) →
    List.Pairwise (fun t1 t2 : DiscoveredTest =>
      ¬ t1.full_name <+: t2.full_name ∧ ¬ t2.full_name <+: t1.full_name) tests →
    (∀ t ∈ tests, find_test acc t.full_name = none) →
    (∀ t ∈ tests, ∀ q, q <+: t.full_name → ∀ i, find_test acc q = some i →
      i.children.isSome = true) →
    ∃ acc', discoverAll old acc tests = some acc' ∧
      (∀ t ∈ tests, find_test acc' t.full_name = some (discItem old t)) ∧
      (∀ q, (∀ t ∈ tests, ¬ q <+: t.full_name ∧ ¬ t.full_name <+: q) →
        find_test acc' q = find_test acc q)
  | [], old, acc, _, _, _, _ => ⟨acc, rfl, by simp, fun q _ => rfl⟩
  | t0 :: rest, old, acc, hne, hpw, habs, hw => by
    obtain ⟨hpw0, hpwrest⟩ := List.pairwise_cons.mp hpw
    have hne0 : t0.full_name ≠ [] := hne t0 (List.mem_cons_self _ _)
    obtain ⟨t'0, hins, hat, hauto⟩ := updateGo_insert t0.full_name acc [] (discItem old t0)
      hne0 (hw t0 (List.mem_cons_self _ _)) (habs t0 (List.mem_cons_self _ _))
    have hstep : discoverStep old acc t0 = some (update_parent_status t'0 t0.full_name) := by
      unfold discoverStep
      rw [show update_test acc t0.full_name (discItem old t0) = some t'0 from hins]
      rfl
    have hfind1 : find_test (update_parent_status t'0 t0.full_name) t0.full_name
        = some (discItem old t0) := by
      rw [ups_find t'0 (fun hpp => hpp.2 rfl)]
      exact hat
    have hshape1 : ∀ q, shapeAt (update_parent_status t'0 t0.full_name) q = shapeAt t'0 q :=
      fun q => ups_shape t'0 t0.full_name q
    have habs' : ∀ t ∈ rest,
        find_test (update_parent_status t'0 t0.full_name) t.full_name = none := by
      intro t ht
      have hinc := hpw0 t ht
      rw [ups_find t'0 (fun hpp => hinc.2 hpp.1)]
      cases hf : find_test t'0 t.full_name with
      | none => rfl
      | some x =>
        exfalso
        rcases updateGo_member t0.full_name acc [] (discItem old t0) t'0 hins t.full_name
          (by rw [hf]; rfl) with hm | hm | hm
        · rw [habs t (List.mem_cons_of_mem _ ht)] at hm
          simp at hm
        · exact hinc.2 hm
        · exact hinc.1 hm
    have hw' : ∀ t ∈ rest, ∀ q, q <+: t.full_name → ∀ i,
        find_test (update_parent_status t'0 t0.full_name) q = some i →
        i.children.isSome = true := by
      intro t ht q hq i hi
      have hinc := hpw0 t ht
      have hshape_goal : shapeAt t'0 q = some true → i.children.isSome = true := by
        intro hsp
        have h1 : shapeAt (update_parent_status t'0 t0.full_name) q
            = some i.children.isSome := by
          unfold shapeAt
          rw [hi]
          rfl
        rw [hshape1 q, hsp] at h1
        injection h1 with h2
        exact h2.symm
      cases hfa : find_test acc q with
      | some j =>
        have hj : j.children.isSome = true := hw t (List.mem_cons_of_mem _ ht) q hq j hfa
        refine hshape_goal (updateGo_shape_pres t0.full_name acc [] _ t'0 hins q ?_)
        unfold shapeAt
        rw [hfa]
        simp only [Option.map_some']
        rw [hj]
      | none =>
        have hqsome : (find_test t'0 q).isSome = true := by
          have h1 : (find_test (update_parent_status t'0 t0.full_name) q).isSome = true := by
            rw [hi]
            rfl
          rw [← shapeAt_isSome, hshape1 q, shapeAt_isSome] at h1
          exact h1
        rcases updateGo_member t0.full_name acc [] (discItem old t0) t'0 hins q hqsome
          with hm | hm | hm
        · rw [hfa] at hm
          simp at hm
        · have hqne : q ≠ [] := by
            intro h
            subst h
            simp [find_test] at hfa
          have hqproper : ProperPref q t0.full_name := by
            refine ⟨hm, ?_⟩
            intro he
            subst he
            exact hinc.1 hq
          obtain ⟨nj, hn1, hn2, _⟩ := hauto q hqne hqproper hfa
          refine hshape_goal ?_
          unfold shapeAt
          rw [hn1]
          simp only [Option.map_some']
          rw [hn2]
        · exact absurd (hm.trans hq) hinc.1
    obtain ⟨acc', hall, hres, hframe⟩ := discoverAll_spec rest old
      (update_parent_status t'0 t0.full_name)
      (fun t ht => hne t (List.mem_cons_of_mem _ ht)) hpwrest habs' hw'
    refine ⟨acc', ?_, ?_, ?_⟩
    · show (match discoverStep old acc t0 with
          | none => none
          | some acc2 => discoverAll old acc2 rest) = some acc'
      rw [hstep]
      exact hall
    · intro t ht
      rcases List.mem_cons.mp ht with he | he
      · subst he
        rw [hframe t.full_name (fun t2 ht2 => hpw0 t2 ht2)]
        exact hfind1
      · exact hres t he
    · intro q hqinc
      rw [hframe q (fun t ht => hqinc t (List.mem_cons_of_mem _ ht))]
      have h0 := hqinc t0 (List.mem_cons_self _ _)
      rw [ups_find t'0 (fun hpp => h0.1 hpp.1)]
      exact updateGo_frame t0.full_name acc [] _ t'0 hins q h0.1 h0.2

/-- C4: after `notify_discovered_tests` over a prefix-free list of non-empty
paths, every discovered path holds exactly `discItem` of the old tree: the
previous item with only `discovery_id`, `framework_id`, `run_id` and
`location` refreshed when the path already existed (so `last_status`,
`run_status` and `last_run` are preserved), and a fresh item with
`last_status = NOT_RUN`, `run_status = NOT_RUNNING` and no `last_run` when it
did not. -/
theorem C4_discovery_preserves (st : DataState) (tests : List DiscoveredTest) (time : Nat)
    (hne : ∀ t ∈ tests, t.full_name ≠ [])
    (hpf : List.Pairwise (fun t1 t2 : DiscoveredTest =>
      ¬ t1.full_name <+: t2.full_name ∧ ¬ t2.full_name <+: t1.full_name) tests) :
    ∃ st', notify_discovered_tests st tests time = some st' ∧
      (∀ t ∈ tests, find_test st'.root t.full_name = some (discItem st.root t)) ∧
      (∀ (i : TestItem) (t2 : DiscoveredTest),
        (update_from_discovered i t2).data.last_status = i.data.last_status ∧
        (update_from_discovered i t2).data.run_status = i.data.run_status ∧
        (update_from_discovered i t2).data.last_run = i.data.last_run ∧
        (update_from_discovered i t2).data.name = i.data.name ∧
        (update_from_discovered i t2).data.full_name = i.data.full_name ∧
        (update_from_discovered i t2).children = i.children ∧
        (update_from_discovered i t2).data.discovery_id = t2.discovery_id ∧
        (update_from_discovered i t2).data.framework_id = t2.framework_id ∧
        (update_from_discovered i t2).data.run_id = t2.run_id ∧
        (update_from_discovered i t2).data.location = some t2.location) ∧
      (∀ t2 : DiscoveredTest,
        (from_discovered t2).data.last_status = TestStatus.NOT_RUN ∧
        (from_discovered t2).data.run_status = RunStatus.NOT_RUNNING ∧
        (from_discovered t2).data.last_run = none) := by
  have habs : ∀ t ∈ tests, find_test emptyRoot t.full_name = none := by
    intro t ht
    cases hfn : t.full_name with
    | nil => exact absurd hfn (hne t ht)
    | cons a pr => rfl
  have hw : ∀ t ∈ tests, ∀ q, q <+: t.full_name → ∀ i,
      find_test emptyRoot q = some i → i.children.isSome = true := by
    intro t _ q _ i hi
    cases q with
    | nil =>
      cases hi
      rfl
    | cons a pr => simp [emptyRoot, find_test, lookupA] at hi
  obtain ⟨acc', hall, hres, _⟩ := discoverAll_spec tests st.root emptyRoot hne hpf habs hw
  refine ⟨{ st with root := acc', last_discovery := some time }, ?_, ?_, ?_, ?_⟩
  · unfold notify_discovered_tests
    rw [hall]
    rfl
  · intro t ht
    exact hres t ht
  · intro i t2
    cases i
    exact ⟨rfl, rfl, rfl, rfl, rfl, rfl, rfl, rfl, rfl, rfl⟩
  · intro t2
    exact ⟨rfl, rfl, rfl⟩

/-- C4 (witness): discovery over a tree holding a previous `FAILED` result at
`a/b`, re-discovering `a/b` and newly discovering `c`. -/
theorem C4_discovery_witness :
    ((∀ t ∈ ([{ full_name := ["a", "b"], discovery_id := 3, framework_id := "fw",
                run_id := "r1", location := { executable := "exe" } },
              { full_name := ["c"], discovery_id := 4, framework_id := "fw",
                run_id := "r2", location := {} }] : List DiscoveredTest),
        t.full_name ≠ []) ∧
      List.Pairwise (fun t1 t2 : DiscoveredTest =>
        ¬ t1.full_name <+: t2.full_name ∧ ¬ t2.full_name <+: t1.full_name)
        ([{ full_name := ["a", "b"], discovery_id := 3, framework_id := "fw",
            run_id := "r1", location := { executable := "exe" } },
          { full_name := ["c"], discovery_id := 4, framework_id := "fw",
            run_id := "r2", location := {} }] : List DiscoveredTest)) ∧
    (∃ st', notify_discovered_tests
        (⟨TestItem.mk {} (some [("a", .mk { name := "a", full_name := "a" }
            (some [("b", .mk { name := "b", full_name := "a/b", last_status := TestStatus.FAILED, last_run := some 5 } none)]))]),
          false, none, none⟩ : DataState)
        [{ full_name := ["a", "b"], discovery_id := 3, framework_id := "fw",
           run_id := "r1", location := { executable := "exe" } },
         { full_name := ["c"], discovery_id := 4, framework_id := "fw",
           run_id := "r2", location := {} }] 9 = some st' ∧
      ∀ t ∈ ([{ full_name := ["a", "b"], discovery_id := 3, framework_id := "fw",
                run_id := "r1", location := { executable := "exe" } },
              { full_name := ["c"], discovery_id := 4, framework_id := "fw",
                run_id := "r2", location := {} }] : List DiscoveredTest),
        find_test st'.root t.full_name = some (discItem
          (TestItem.mk {} (some [("a", .mk { name := "a", full_name := "a" }
            (some [("b", .mk { name := "b", full_name := "a/b", last_status := TestStatus.FAILED, last_run := some 5 } none)]))])) t)) := by
  refine ⟨⟨by decide, by decide⟩, ?_⟩
  obtain ⟨st', h1, h2, _, _⟩ := C4_discovery_preserves
    (⟨TestItem.mk {} (some [("a", .mk { name := "a", full_name := "a" }
        (some [("b", .mk { name := "b", full_name := "a/b", last_status := TestStatus.FAILED, last_run := some 5 } none)]))]),
      false, none, none⟩ : DataState)
    [{ full_name := ["a", "b"], discovery_id := 3, framework_id := "fw",
       run_id := "r1", location := { executable := "exe" } },
     { full_name := ["c"], discovery_id := 4, framework_id := "fw",
       run_id := "r2", location := {} }] 9 (by decide) (by decide)
  exact ⟨st', h1, h2⟩

end TexplData
